import Mathlib

/-!
# Sidecar terminator: the `Reconcile` loop of `SidecarReconciler`

A shallow embedding of `internal/controller/sidecar_controller.go`.

The API client embedded in `SidecarReconciler` is an external collaborator: it is
modelled as a record of operations over an arbitrary cluster state `σ`, each
operation returning its result (or error) together with the next state.  Every
call that `Reconcile` issues is written to a trace, so that statements about
which calls happen, and in which order, can be made about the trace.
-/

set_option autoImplicit false

namespace SidecarTerminator

/-! ## Data model -/

/-- A Go `error` coming back from the API machinery: a status reason and a message. -/
structure Err where
  reason : String
  message : String
deriving DecidableEq

/-- The test `apierrors.IsNotFound`. -/
def IsNotFound (e : Err) : Bool := e.reason == "NotFound"

/-- The helper `client.IgnoreNotFound` applied to a non-nil error: a not-found error becomes
`nil`, any other error is returned as it is. -/
def IgnoreNotFound (e : Err) : Option Err := if IsNotFound e then none else some e

/-- A Go `map[string]string`, given by its entries in the order in which a `range` loop
visits them.  The keys of a Go map are pairwise distinct. -/
abbrev LabelMap := List (String × String)

/-- Indexing `m[k]` of a Go map: the stored value, or the zero value `""` when `k` is absent. -/
def LabelMap.index (m : LabelMap) (k : String) : String := (m.lookup k).getD ""

/-- The type `types.NamespacedName`. -/
structure NamespacedName where
  Namespace : String
  Name : String
deriving DecidableEq

/-- Modelled from the spec: the type `terminatorv1alpha1.DeleteRules` of package `api/v1alpha1`,
whose declaration is not among the sources.  One delete rule: a namespace specifier (a literal
name or `*`) and a flat mapping of label key to required value, which is how `Reconcile`
indexes and ranges over `rule.Labels`. -/
structure DeleteRules where
  Namespace : String
  Labels : LabelMap
deriving DecidableEq

/-- The type `metav1.ConditionStatus`. -/
inductive ConditionStatus
  | ConditionTrue
  | ConditionFalse
  | ConditionUnknown
deriving DecidableEq

/-- The type `metav1.Condition`, with the fields `Reconcile` sets (`Type_` is the field `Type`). -/
structure Condition where
  Type_ : String
  Status : ConditionStatus
  Reason : String
  LastTransitionTime : Nat
  Message : String
deriving DecidableEq

/-- Modelled from the spec: the type `terminatorv1alpha1.Sidecar` of package `api/v1alpha1`,
whose declaration is not among the sources.  The watched resource: its identity, the ordered
delete rules `Spec.DeleteRules` and the ordered conditions `Status.Conditions`. -/
structure Sidecar where
  Key : NamespacedName
  DeleteRules : List DeleteRules
  Conditions : List Condition
deriving DecidableEq

/-- The type `corev1.Namespace`, reduced to its name. -/
structure Namespace where
  Name : String
deriving DecidableEq

/-- The type `corev1.Pod`, reduced to identity and labels. -/
structure Pod where
  Namespace : String
  Name : String
  Labels : LabelMap
deriving DecidableEq

/-! ## Label selectors (package `labels`) -/

/-- A `labels.Requirement` with operator `selection.Equals` and a single value, the only kind
of requirement `Reconcile` constructs. -/
structure Requirement where
  key : String
  value : String
deriving DecidableEq

/-- `Requirement.Matches` for the `Equals` operator: the label set has the key, and the value
stored under it is the required one. -/
def Requirement.Matches (r : Requirement) (ls : LabelMap) : Bool :=
  ls.lookup r.key == some r.value

/-- A `labels.Selector`: a list of requirements, all of which have to hold. -/
structure Selector where
  requirements : List Requirement
deriving DecidableEq

/-- The selector `labels.Everything()`: no requirement at all. -/
def Everything : Selector := ⟨[]⟩

/-- The selector `labels.NewSelector()`. -/
def NewSelector : Selector := ⟨[]⟩

/-- The method `Selector.Add`: the requirements are appended.  (The library then sorts them by
key, which `Matches` cannot observe.) -/
def Selector.Add (s : Selector) (reqs : List Requirement) : Selector :=
  ⟨s.requirements ++ reqs⟩

/-- The method `Selector.Matches`: every requirement matches. -/
def Selector.Matches (s : Selector) (ls : LabelMap) : Bool :=
  s.requirements.all (fun r => r.Matches ls)

/-- The call `labels.NewRequirement(key, selection.Equals, []string{value})`.  The syntactic
validation of the key and the value belongs to the library and is a parameter `validate`,
which returns the validation error, if any. -/
def NewRequirement (validate : String → String → Option Err) (key value : String) :
    Except Err Requirement :=
  match validate key value with
  | some err => .error err
  | none => .ok ⟨key, value⟩

/-! ## The API client and the trace of calls -/

/-- The operations of `client.Client` that `Reconcile` uses, over a cluster state `σ`.  Each
operation returns its outcome and the cluster state after the call.  `now` is `metav1.Now`. -/
structure Client (σ : Type) where
  get : σ → NamespacedName → Except Err Sidecar × σ
  listNamespaces : σ → Except Err (List Namespace) × σ
  listPods : σ → String → Selector → Except Err (List Pod) × σ
  delete : σ → Pod → Option Err × σ
  statusUpdate : σ → Sidecar → Option Err × σ
  now : σ → Nat

/-- The calls `Reconcile` can issue. -/
inductive Call
  | get (key : NamespacedName)
  | listNamespaces
  | newRequirement (key value : String)
  | listPods (ns : String) (selector : Selector)
  | delete (pod : Pod)
  | statusUpdate (sidecar : Sidecar)
deriving DecidableEq

/-- One issued call with the error it returned (`none` when it succeeded). -/
structure Event where
  call : Call
  err : Option Err
deriving DecidableEq

/-- The cluster state together with the calls issued so far, oldest first. -/
structure World (σ : Type) where
  state : σ
  trace : List Event

/-- Moves to the cluster state `s` and records `call` with its error. -/
def World.record {σ : Type} (w : World σ) (s : σ) (call : Call) (err : Option Err) : World σ :=
  ⟨s, w.trace ++ [⟨call, err⟩]⟩

/-- The value `ctrl.Result`; `Reconcile` only ever returns the empty one. -/
structure CtrlResult where
  Requeue : Bool
  RequeueAfter : Nat
deriving DecidableEq

/-! ## Reconcile -/

section Reconcile

variable {σ : Type}

/-- Lines 68-81: the namespaces a rule targets. -/
def resolveNamespaces (c : Client σ) (rule : DeleteRules) (w : World σ) :
    Except Err (List String) × World σ :=
  if rule.Namespace = "*" then
    match c.listNamespaces w.state with
    | (.error err, s) => (.error err, w.record s .listNamespaces (some err))
    | (.ok items, s) => (.ok (([] : List String) ++ items.map (·.Name)), w.record s .listNamespaces none)
  else
    (.ok (([] : List String) ++ [rule.Namespace]), w)

/-- Lines 90-97: the loop over the entries of the label map, appending to `requirements`. -/
def buildRequirements (validate : String → String → Option Err) :
    LabelMap → List Requirement → World σ → Except Err (List Requirement) × World σ
  | [], requirements, w => (.ok requirements, w)
  | (key, value) :: rest, requirements, w =>
    match NewRequirement validate key value with
    | .error err => (.error err, w.record w.state (.newRequirement key value) (some err))
    | .ok requirement =>
      buildRequirements validate rest (requirements ++ [requirement])
        (w.record w.state (.newRequirement key value) none)

/-- Lines 84-100: the label selector of a rule. -/
def buildSelector (validate : String → String → Option Err) (labels : LabelMap) (w : World σ) :
    Except Err Selector × World σ :=
  if labels.length = 0 ∨ labels.index "*" = "*" then
    (.ok Everything, w)
  else
    match buildRequirements validate labels [] w with
    | (.error err, w1) => (.error err, w1)
    | (.ok requirements, w1) => (.ok (NewSelector.Add requirements), w1)

/-- Lines 115-121: one delete call per listed pod, stopping at the first failure. -/
def deletePods (c : Client σ) : List Pod → World σ → Option Err × World σ
  | [], w => (none, w)
  | pod :: rest, w =>
    match c.delete w.state pod with
    | (some err, s) => (some err, w.record s (.delete pod) (some err))
    | (none, s) => deletePods c rest (w.record s (.delete pod) none)

/-- Lines 103-122: list and delete the matching pods of every resolved namespace. -/
def cullNamespaces (c : Client σ) (labelSelector : Selector) :
    List String → World σ → Option Err × World σ
  | [], w => (none, w)
  | ns :: rest, w =>
    match c.listPods w.state ns labelSelector with
    | (.error err, s) => (some err, w.record s (.listPods ns labelSelector) (some err))
    | (.ok items, s) =>
      match deletePods c items (w.record s (.listPods ns labelSelector) none) with
      | (some err, w1) => (some err, w1)
      | (none, w1) => cullNamespaces c labelSelector rest w1

/-- Lines 68-122: the body of the loop over the delete rules, for one rule. -/
def processRule (c : Client σ) (validate : String → String → Option Err) (rule : DeleteRules)
    (w : World σ) : Option Err × World σ :=
  match resolveNamespaces c rule w with
  | (.error err, w1) => (some err, w1)
  | (.ok namespaces, w1) =>
    match buildSelector validate rule.Labels w1 with
    | (.error err, w2) => (some err, w2)
    | (.ok labelSelector, w2) => cullNamespaces c labelSelector namespaces w2

/-- Lines 67-123: the loop over `sidecar.Spec.DeleteRules`. -/
def processRules (c : Client σ) (validate : String → String → Option Err) :
    List DeleteRules → World σ → Option Err × World σ
  | [], w => (none, w)
  | rule :: rest, w =>
    match processRule c validate rule w with
    | (some err, w1) => (some err, w1)
    | (none, w1) => processRules c validate rest w1

/-- The message `fmt.Sprintf("Processed DeleteRules for %d namespaces", n)`. -/
def conditionMessage (n : Nat) : String :=
  "Processed DeleteRules for " ++ toString n ++ " namespaces"

/-- Lines 125-131: the condition appended after all rules went through. -/
def reconciledCondition (sidecar : Sidecar) (now : Nat) : Condition :=
  { Type_ := "Reconciled"
    Status := .ConditionTrue
    Reason := "Reconciled"
    LastTransitionTime := now
    Message := conditionMessage sidecar.DeleteRules.length }

/-- The method `SidecarReconciler.Reconcile`: the returned `(ctrl.Result, error)` and the world after the
call. -/
def Reconcile (c : Client σ) (validate : String → String → Option Err) (req : NamespacedName)
    (w : World σ) : (CtrlResult × Option Err) × World σ :=
  match c.get w.state req with
  | (.error err, s) => ((⟨false, 0⟩, IgnoreNotFound err), w.record s (.get req) (some err))
  | (.ok sidecar, s) =>
    match processRules c validate sidecar.DeleteRules (w.record s (.get req) none) with
    | (some err, w1) => ((⟨false, 0⟩, some err), w1)
    | (none, w1) =>
      let sidecar1 : Sidecar :=
        { sidecar with Conditions := sidecar.Conditions ++ [reconciledCondition sidecar (c.now w1.state)] }
      match c.statusUpdate w1.state sidecar1 with
      | (some err, s2) => ((⟨false, 0⟩, some err), w1.record s2 (.statusUpdate sidecar1) (some err))
      | (none, s2) => ((⟨false, 0⟩, none), w1.record s2 (.statusUpdate sidecar1) none)

end Reconcile

/-! ## An in-memory cluster

A cluster in which reads return what is stored, a successful pod delete removes the pod, a
status update replaces the stored conditions, and nothing else changes. -/

/-- The objects stored in the cluster, and the reading of its clock. -/
structure Cluster where
  namespaces : List Namespace
  pods : List Pod
  sidecars : List Sidecar
  clock : Nat
deriving DecidableEq

/-- The error of the API server for an object that is not stored. -/
def notFoundErr (what : String) : Err := ⟨"NotFound", what ++ " not found"⟩

/-- Two pods have the same identity: namespace and name. -/
def Pod.sameIdentity (p q : Pod) : Bool := p.Namespace == q.Namespace && p.Name == q.Name

/-- Fetch by identity: the stored resource, or a not-found error. -/
def Cluster.get (cl : Cluster) (key : NamespacedName) : Except Err Sidecar × Cluster :=
  match cl.sidecars.find? (fun sc => sc.Key == key) with
  | some sc => (.ok sc, cl)
  | none => (.error (notFoundErr "sidecar"), cl)

/-- List-all for namespaces. -/
def Cluster.listNamespaces (cl : Cluster) : Except Err (List Namespace) × Cluster :=
  (.ok cl.namespaces, cl)

/-- The pod is returned by a pod list with the options `client.InNamespace(ns)` and
`client.MatchingLabelsSelector`: its labels match the selector and it lies in the namespace
`ns`, where the empty name `""` stands for every namespace. -/
def Pod.listedUnder (p : Pod) (ns : String) (selector : Selector) : Bool :=
  (ns == "" || p.Namespace == ns) && selector.Matches p.Labels

/-- List-by-namespace-and-selector for pods. -/
def Cluster.listPods (cl : Cluster) (ns : String) (selector : Selector) :
    Except Err (List Pod) × Cluster :=
  (.ok (cl.pods.filter (fun p => p.listedUnder ns selector)), cl)

/-- Delete-by-identity for pods: removes the pod, or fails with not-found when it is not stored. -/
def Cluster.delete (cl : Cluster) (pod : Pod) : Option Err × Cluster :=
  if cl.pods.any (fun p => p.sameIdentity pod) then
    (none, { cl with pods := cl.pods.filter (fun p => !p.sameIdentity pod) })
  else
    (some (notFoundErr "pod"), cl)

/-- Status-subresource update: replaces the conditions of the stored resource. -/
def Cluster.statusUpdate (cl : Cluster) (sidecar : Sidecar) : Option Err × Cluster :=
  if cl.sidecars.any (fun sc => sc.Key == sidecar.Key) then
    (none, { cl with sidecars := cl.sidecars.map (fun sc =>
      if sc.Key == sidecar.Key then { sc with Conditions := sidecar.Conditions } else sc) })
  else
    (some (notFoundErr "sidecar"), cl)

/-- The in-memory cluster as an API client. -/
def Cluster.client : Client Cluster where
  get := Cluster.get
  listNamespaces := Cluster.listNamespaces
  listPods := Cluster.listPods
  delete := Cluster.delete
  statusUpdate := Cluster.statusUpdate
  now := Cluster.clock

/-- A validation that rejects exactly the empty key and the key `*`, used in examples. -/
def sampleValidate (key _value : String) : Option Err :=
  if key = "" ∨ key = "*" then some ⟨"Invalid", "invalid label key"⟩ else none


/-! ## Observing the trace -/

/-- The calls issued by the loop over the delete rules: namespace list, requirement
construction, pod list, pod delete. -/
def Call.isRuleCall : Call → Bool
  | .listNamespaces => true
  | .newRequirement _ _ => true
  | .listPods _ _ => true
  | .delete _ => true
  | .get _ => false
  | .statusUpdate _ => false

/-- The pods of the delete calls in a trace, in the order of the calls. -/
def deleteCalls (t : List Event) : List Pod :=
  t.filterMap (fun ev => match ev.call with
    | .delete pod => some pod
    | _ => none)

/-- The resources submitted by the status update calls in a trace, in the order of the calls. -/
def statusUpdateCalls (t : List Event) : List Sidecar :=
  t.filterMap (fun ev => match ev.call with
    | .statusUpdate sidecar => some sidecar
    | _ => none)

/-- The namespaces and selectors of the pod list calls in a trace, in the order of the calls. -/
def listPodsCalls (t : List Event) : List (String × Selector) :=
  t.filterMap (fun ev => match ev.call with
    | .listPods ns selector => some (ns, selector)
    | _ => none)

/-- The error of a fallible result, if any. -/
def errOf {α : Type} : Except Err α → Option Err
  | .error err => some err
  | .ok _ => none

/-- What a run of rule calls that ended with `r` adds to the trace: only rule calls; when
`r` is `nil` all of them succeeded, and when `r` is an error the last call failed with it and
all calls before succeeded. -/
def Added (r : Option Err) (evs : List Event) : Prop :=
  (∀ ev ∈ evs, ev.call.isRuleCall = true) ∧
  match r with
  | none => ∀ ev ∈ evs, ev.err = none
  | some e => ∃ pre call, evs = pre ++ [⟨call, some e⟩] ∧ ∀ ev ∈ pre, ev.err = none

/-! ## Reference definitions, following the specification -/

section Reference

variable {σ : Type}

/-- Namespace Resolver of the specification: a literal name gives the one-element list holding
it verbatim; the wildcard gives the names of the live namespace list, in listing order, none
filtered out. -/
def resolveSpec (namespaceField : String) (live : List Namespace) : List String :=
  if namespaceField = "*" then live.map (fun n => n.Name) else [namespaceField]

/-- The items a list call returned (none when it failed). -/
def listed {α : Type} : Except Err (List α) → List α
  | .ok items => items
  | .error _ => []

/-- The cluster state after one delete call for each of `pods`, in order. -/
def afterDeletes (c : Client σ) (s : σ) (pods : List Pod) : σ :=
  pods.foldl (fun st pod => (c.delete st pod).2) s

/-- Delete sequence of one rule, following the specification: for each resolved namespace in
resolution order, the pods returned by listing that namespace under the selector, in listing
order.  The second component is the cluster state after these calls. -/
def specCull (c : Client σ) (selector : Selector) : List String → σ → List Pod × σ
  | [], s => ([], s)
  | ns :: rest, s =>
    let pods := listed (c.listPods s ns selector).1
    let r := specCull c selector rest (afterDeletes c (c.listPods s ns selector).2 pods)
    (pods ++ r.1, r.2)

/-- Delete sequence of a reconcile, following the specification: for each delete rule in
declared order, the delete sequence of that rule, for the namespaces the rule resolves to and
the selector built from its labels. -/
def specDeletes (c : Client σ) (validate : String → String → Option Err) :
    List DeleteRules → σ → List Pod
  | [], _ => []
  | rule :: rest, s =>
    let s1 := if rule.Namespace = "*" then (c.listNamespaces s).2 else s
    let namespaces := resolveSpec rule.Namespace (listed (c.listNamespaces s).1)
    match (buildSelector validate rule.Labels (⟨s1, []⟩ : World σ)).1 with
    | .ok selector =>
      let r := specCull c selector namespaces s1
      r.1 ++ specDeletes c validate rest r.2
    | .error _ => []

end Reference


/-- The pod list of the client honours its options: it returns only pods whose labels match
the selector and that lie in the listed namespace, the empty name `""` listing every
namespace. -/
def ListsInNamespace {σ : Type} (c : Client σ) : Prop :=
  ∀ s ns selector items s1, c.listPods s ns selector = (.ok items, s1) →
    ∀ p ∈ items, selector.Matches p.Labels = true ∧ (ns = "" ∨ p.Namespace = ns)

/-! ## Scenarios -/

/-- The identity of the resource in the scenarios. -/
def scenarioKey : NamespacedName := ⟨"default", "test-resource"⟩

/-- Pod `p1` of namespace `default`, labelled `app: x`. -/
def podP1 : Pod := ⟨"default", "p1", [("app", "x")]⟩

/-- Pod `p2` of namespace `default`, labelled `app: y`. -/
def podP2 : Pod := ⟨"default", "p2", [("app", "y")]⟩

/-- Scenario A: one rule for namespace `default` and labels `app: x`; pods `p1` and `p2`. -/
def scenarioA : Cluster :=
  ⟨[⟨"default"⟩], [podP1, podP2], [⟨scenarioKey, [⟨"default", [("app", "x")]⟩], []⟩], 0⟩

/-- The pod of namespace `a` in scenario B. -/
def podA : Pod := ⟨"a", "pa", [("app", "x")]⟩

/-- The pod of namespace `b` in scenario B. -/
def podB : Pod := ⟨"b", "pb", []⟩

/-- Scenario B: one rule with the wildcard namespace and no labels; namespaces `a` and `b`,
one pod in each. -/
def scenarioB : Cluster :=
  ⟨[⟨"a"⟩, ⟨"b"⟩], [podA, podB], [⟨scenarioKey, [⟨"*", []⟩], []⟩], 0⟩

/-- Scenario B with the empty namespace name: one rule with namespace `""` and no labels;
namespaces `a` and `b`, one pod in each. -/
def scenarioEmptyNamespace : Cluster :=
  ⟨[⟨"a"⟩, ⟨"b"⟩], [podA, podB], [⟨scenarioKey, [⟨"", []⟩], []⟩], 0⟩

/-- Scenario C: the resource is not stored in the cluster. -/
def scenarioC : Cluster := ⟨[⟨"default"⟩], [podP1, podP2], [], 0⟩

/-- Scenario D: a rule with the empty label key, after a rule that matches `p1`. -/
def scenarioD : Cluster :=
  ⟨[⟨"default"⟩], [podP1, podP2],
    [⟨scenarioKey, [⟨"default", [("app", "x")]⟩, ⟨"default", [("", "v")]⟩], []⟩], 0⟩

/-- Scenario D with the wildcard entry: the single rule has the empty label key next to the
entry "*" -> "*". -/
def scenarioDWildcard : Cluster :=
  ⟨[⟨"default"⟩], [podP1, podP2],
    [⟨scenarioKey, [⟨"default", [("", "v"), ("*", "*")]⟩], []⟩], 0⟩

/-- The in-memory cluster behind an API server that refuses every pod delete. -/
def refusingDeletes : Client Cluster :=
  { Cluster.client with delete := fun cl _ => (some ⟨"Forbidden", "pods is forbidden"⟩, cl) }

/-- Scenario A after one more rule was added: `default` with `app: x`, then the wildcard
namespace with `tier: db`. -/
def scenarioTwoRules : Cluster :=
  ⟨[⟨"default"⟩, ⟨"data"⟩], [podP1, podP2, ⟨"data", "p3", [("tier", "db"), ("app", "y")]⟩],
    [⟨scenarioKey, [⟨"default", [("app", "x")]⟩, ⟨"*", [("tier", "db")]⟩],
      [⟨"Ready", .ConditionTrue, "Ready", 0, "ready"⟩]⟩], 5⟩

/-! ## Culled clusters -/

/-- The cluster holds no pod that the rule targets: the selector of the rule is built, and no
stored pod is listed under it for a namespace the rule resolves to. -/
def Culled (validate : String → String → Option Err) (cl : Cluster) (rule : DeleteRules) : Prop :=
  ∃ selector, (buildSelector validate rule.Labels (⟨(), []⟩ : World Unit)).1 = .ok selector ∧
    ∀ ns ∈ resolveSpec rule.Namespace cl.namespaces, ∀ q ∈ cl.pods,
      q.listedUnder ns selector = false

/-- The status update of the in-memory cluster, on the stored resources. -/
def withConditions (sidecar : Sidecar) (sc : Sidecar) : Sidecar :=
  if sc.Key == sidecar.Key then { sc with Conditions := sidecar.Conditions } else sc

/-! ## What each loop adds to the trace -/

section Trace

variable {σ : Type}

theorem added_nil : Added none [] := by
  simp [Added]

theorem added_ok (call : Call) (h : call.isRuleCall = true) : Added none [⟨call, none⟩] := by
  simp [Added, h]

theorem added_fail (call : Call) (e : Err) (h : call.isRuleCall = true) :
    Added (some e) [⟨call, some e⟩] := by
  refine ⟨by simp [h], [], call, by simp, by simp⟩

theorem added_append {r : Option Err} {evs1 evs2 : List Event} (h1 : Added none evs1)
    (h2 : Added r evs2) : Added r (evs1 ++ evs2) := by
  obtain ⟨h1a, h1b⟩ := h1
  obtain ⟨h2a, h2b⟩ := h2
  refine ⟨?_, ?_⟩
  · intro ev hev
    rcases List.mem_append.1 hev with h | h
    · exact h1a ev h
    · exact h2a ev h
  · cases r with
    | none =>
      intro ev hev
      rcases List.mem_append.1 hev with h | h
      · exact h1b ev h
      · exact h2b ev h
    | some e =>
      obtain ⟨pre, call, hpre, hok⟩ := h2b
      refine ⟨evs1 ++ pre, call, by simp [hpre], ?_⟩
      intro ev hev
      rcases List.mem_append.1 hev with h | h
      · exact h1b ev h
      · exact hok ev h

theorem deletePods_added (c : Client σ) (pods : List Pod) (w : World σ) :
    ∃ evs, (deletePods c pods w).2.trace = w.trace ++ evs ∧ Added (deletePods c pods w).1 evs := by
  induction pods generalizing w with
  | nil => exact ⟨[], by simp [deletePods], added_nil⟩
  | cons pod rest ih =>
    rcases h : c.delete w.state pod with ⟨r, s⟩
    cases r with
    | some err =>
      refine ⟨[⟨.delete pod, some err⟩], ?_, ?_⟩
      · simp [deletePods, h, World.record]
      · simp only [deletePods, h]
        exact added_fail (.delete pod) err rfl
    | none =>
      obtain ⟨evs, h1, h2⟩ := ih (w.record s (.delete pod) none)
      refine ⟨⟨.delete pod, none⟩ :: evs, ?_, ?_⟩
      · simp only [deletePods, h, h1]
        simp [World.record]
      · simp only [deletePods, h]
        exact added_append (added_ok (.delete pod) rfl) h2

theorem cullNamespaces_added (c : Client σ) (sel : Selector) (nss : List String) (w : World σ) :
    ∃ evs, (cullNamespaces c sel nss w).2.trace = w.trace ++ evs ∧
      Added (cullNamespaces c sel nss w).1 evs := by
  induction nss generalizing w with
  | nil => exact ⟨[], by simp [cullNamespaces], added_nil⟩
  | cons ns rest ih =>
    rcases h : c.listPods w.state ns sel with ⟨r, s⟩
    cases r with
    | error err =>
      refine ⟨[⟨.listPods ns sel, some err⟩], ?_, ?_⟩
      · simp [cullNamespaces, h, World.record]
      · simp only [cullNamespaces, h]
        exact added_fail (.listPods ns sel) err rfl
    | ok items =>
      obtain ⟨evs1, h1, h2⟩ := deletePods_added c items (w.record s (.listPods ns sel) none)
      rcases hd : deletePods c items (w.record s (.listPods ns sel) none) with ⟨r1, w1⟩
      rw [hd] at h1 h2
      simp only at h1 h2
      cases r1 with
      | some err =>
        refine ⟨⟨.listPods ns sel, none⟩ :: evs1, ?_, ?_⟩
        · simp only [cullNamespaces, h, hd, h1]
          simp [World.record]
        · simp only [cullNamespaces, h, hd]
          exact added_append (added_ok (.listPods ns sel) rfl) h2
      | none =>
        obtain ⟨evs2, h3, h4⟩ := ih w1
        refine ⟨⟨.listPods ns sel, none⟩ :: (evs1 ++ evs2), ?_, ?_⟩
        · simp only [cullNamespaces, h, hd, h3, h1]
          simp [World.record]
        · simp only [cullNamespaces, h, hd]
          exact added_append (added_ok (.listPods ns sel) rfl) (added_append h2 h4)

theorem resolveNamespaces_added (c : Client σ) (rule : DeleteRules) (w : World σ) :
    ∃ evs, (resolveNamespaces c rule w).2.trace = w.trace ++ evs ∧
      Added (errOf (resolveNamespaces c rule w).1) evs := by
  unfold resolveNamespaces
  split
  · rcases h : c.listNamespaces w.state with ⟨r, s⟩
    cases r with
    | error err =>
      exact ⟨[⟨.listNamespaces, some err⟩], by simp [World.record],
        added_fail .listNamespaces err rfl⟩
    | ok items =>
      exact ⟨[⟨.listNamespaces, none⟩], by simp [World.record], added_ok .listNamespaces rfl⟩
  · exact ⟨[], by simp, added_nil⟩

theorem buildRequirements_added (validate : String → String → Option Err) (m : LabelMap)
    (acc : List Requirement) (w : World σ) :
    ∃ evs, (buildRequirements validate m acc w).2.trace = w.trace ++ evs ∧
      (buildRequirements validate m acc w).2.state = w.state ∧
      Added (errOf (buildRequirements validate m acc w).1) evs := by
  induction m generalizing acc w with
  | nil => exact ⟨[], by simp [buildRequirements], by simp [buildRequirements], added_nil⟩
  | cons kv rest ih =>
    obtain ⟨key, value⟩ := kv
    cases h : NewRequirement validate key value with
    | error err =>
      refine ⟨[⟨.newRequirement key value, some err⟩], ?_, ?_, ?_⟩
      · simp [buildRequirements, h, World.record]
      · simp [buildRequirements, h, World.record]
      · simp only [buildRequirements, h]
        exact added_fail (.newRequirement key value) err rfl
    | ok requirement =>
      obtain ⟨evs, h1, h2, h3⟩ := ih (acc ++ [requirement])
        (w.record w.state (.newRequirement key value) none)
      refine ⟨⟨.newRequirement key value, none⟩ :: evs, ?_, ?_, ?_⟩
      · simp only [buildRequirements, h, h1]
        simp [World.record]
      · simp only [buildRequirements, h, h2]
        simp [World.record]
      · simp only [buildRequirements, h]
        exact added_append (added_ok (.newRequirement key value) rfl) h3

theorem buildSelector_added (validate : String → String → Option Err) (m : LabelMap)
    (w : World σ) :
    ∃ evs, (buildSelector validate m w).2.trace = w.trace ++ evs ∧
      (buildSelector validate m w).2.state = w.state ∧
      Added (errOf (buildSelector validate m w).1) evs := by
  unfold buildSelector
  split
  · exact ⟨[], by simp, rfl, added_nil⟩
  · obtain ⟨evs, h1, h2, h3⟩ := buildRequirements_added validate m [] w
    rcases h : buildRequirements validate m [] w with ⟨r, w1⟩
    rw [h] at h1 h2 h3
    cases r with
    | error err => exact ⟨evs, h1, h2, h3⟩
    | ok reqs => exact ⟨evs, h1, h2, h3⟩

theorem processRule_added (c : Client σ) (validate : String → String → Option Err)
    (rule : DeleteRules) (w : World σ) :
    ∃ evs, (processRule c validate rule w).2.trace = w.trace ++ evs ∧
      Added (processRule c validate rule w).1 evs := by
  obtain ⟨evs1, h1, h2⟩ := resolveNamespaces_added c rule w
  rcases hr : resolveNamespaces c rule w with ⟨r, w1⟩
  rw [hr] at h1 h2
  simp only at h1 h2
  cases r with
  | error err =>
    refine ⟨evs1, ?_, ?_⟩
    · simp only [processRule, hr, h1]
    · simp only [processRule, hr]
      exact h2
  | ok nss =>
    obtain ⟨evs2, h3, _, h4⟩ := buildSelector_added validate rule.Labels w1
    rcases hb : buildSelector validate rule.Labels w1 with ⟨r2, w2⟩
    rw [hb] at h3 h4
    simp only at h3 h4
    cases r2 with
    | error err =>
      refine ⟨evs1 ++ evs2, ?_, ?_⟩
      · simp only [processRule, hr, hb, h3, h1, List.append_assoc]
      · simp only [processRule, hr, hb]
        exact added_append h2 h4
    | ok sel =>
      obtain ⟨evs3, h5, h6⟩ := cullNamespaces_added c sel nss w2
      refine ⟨evs1 ++ (evs2 ++ evs3), ?_, ?_⟩
      · simp only [processRule, hr, hb, h5, h3, h1, List.append_assoc]
      · simp only [processRule, hr, hb]
        exact added_append h2 (added_append h4 h6)

theorem processRules_added (c : Client σ) (validate : String → String → Option Err)
    (rules : List DeleteRules) (w : World σ) :
    ∃ evs, (processRules c validate rules w).2.trace = w.trace ++ evs ∧
      Added (processRules c validate rules w).1 evs := by
  induction rules generalizing w with
  | nil => exact ⟨[], by simp [processRules], added_nil⟩
  | cons rule rest ih =>
    obtain ⟨evs1, h1, h2⟩ := processRule_added c validate rule w
    rcases hr : processRule c validate rule w with ⟨r, w1⟩
    rw [hr] at h1 h2
    simp only at h1 h2
    cases r with
    | some err =>
      refine ⟨evs1, ?_, ?_⟩
      · simp only [processRules, hr, h1]
      · simp only [processRules, hr]
        exact h2
    | none =>
      obtain ⟨evs2, h3, h4⟩ := ih w1
      refine ⟨evs1 ++ evs2, ?_, ?_⟩
      · simp only [processRules, hr, h3, h1, List.append_assoc]
      · simp only [processRules, hr]
        exact added_append h2 h4

theorem last_failure {L pre post : List Event} {x ev : Event}
    (h : L ++ [x] = pre ++ ev :: post) (hok : ∀ y ∈ L, y.err = none) (hev : ev.err ≠ none) :
    post = [] ∧ pre = L ∧ ev = x := by
  induction L generalizing pre with
  | nil =>
    cases pre with
    | nil =>
      simp only [List.nil_append, List.cons.injEq] at h
      exact ⟨h.2.symm, rfl, h.1.symm⟩
    | cons p pre1 =>
      simp at h
  | cons y L1 ih =>
    cases pre with
    | nil =>
      simp only [List.cons_append, List.nil_append, List.cons.injEq] at h
      exact absurd (h.1 ▸ hok y (List.mem_cons_self _ _)) hev
    | cons p pre1 =>
      simp only [List.cons_append, List.cons.injEq] at h
      obtain ⟨h1, h2, h3⟩ := ih h.2 (fun z hz => hok z (List.mem_cons_of_mem _ hz))
      exact ⟨h1, by rw [h.1, h2], h3⟩

theorem statusUpdateCalls_of_ruleCalls {evs : List Event}
    (h : ∀ ev ∈ evs, ev.call.isRuleCall = true) : statusUpdateCalls evs = [] := by
  induction evs with
  | nil => rfl
  | cons ev rest ih =>
    have h1 := h ev (List.mem_cons_self _ _)
    have h2 := ih (fun z hz => h z (List.mem_cons_of_mem _ hz))
    obtain ⟨call, err⟩ := ev
    cases call <;> simp_all [statusUpdateCalls, Call.isRuleCall]

/-- C5: when fetching the resource fails, the fetch is the only call Reconcile issues (nothing
is listed, no pod is deleted, the status is not updated); the returned error is `nil` exactly
when the fetch error is not-found, and is the fetch error itself otherwise. -/
theorem reconcile_fetch_failure (c : Client σ) (validate : String → String → Option Err)
    (req : NamespacedName) (s s1 : σ) (err : Err) (hget : c.get s req = (.error err, s1)) :
    (Reconcile c validate req ⟨s, []⟩).2.trace = [⟨.get req, some err⟩] ∧
    (Reconcile c validate req ⟨s, []⟩).2.state = s1 ∧
    ((Reconcile c validate req ⟨s, []⟩).1.2 = none ↔ IsNotFound err = true) ∧
    (IsNotFound err = false → (Reconcile c validate req ⟨s, []⟩).1.2 = some err) := by
  simp only [Reconcile, hget, World.record, List.nil_append, IgnoreNotFound, true_and]
  cases h : IsNotFound err <;> simp

/-- C4: abort on failure.  If a namespace list, requirement construction, pod list or pod
delete issued by Reconcile fails with error `e`, then Reconcile returns `e` itself, the failing
call is the last call of the reconcile (so no pod delete follows it), every call before it
succeeded, and the status update is never called. -/
theorem reconcile_abort_on_failure (c : Client σ) (validate : String → String → Option Err)
    (req : NamespacedName) (s : σ) (pre post : List Event) (ev : Event) (e : Err)
    (htrace : (Reconcile c validate req ⟨s, []⟩).2.trace = pre ++ ev :: post)
    (hcall : ev.call.isRuleCall = true) (herr : ev.err = some e) :
    (Reconcile c validate req ⟨s, []⟩).1.2 = some e ∧ post = [] ∧
    (∀ ev1 ∈ pre, ev1.err = none) ∧
    statusUpdateCalls (Reconcile c validate req ⟨s, []⟩).2.trace = [] := by
  have hne : ev.err ≠ none := by rw [herr]; simp
  rcases hg : c.get s req with ⟨r, s1⟩
  cases r with
  | error err =>
    simp only [Reconcile, hg, World.record, List.nil_append] at htrace
    have h3 := last_failure (L := []) htrace (by simp) hne
    rw [h3.2.2] at hcall
    simp [Call.isRuleCall] at hcall
  | ok sidecar =>
    obtain ⟨evs, h1, h2⟩ := processRules_added c validate sidecar.DeleteRules
      (World.record ⟨s, []⟩ s1 (.get req) none)
    rcases hp : processRules c validate sidecar.DeleteRules
      (World.record ⟨s, []⟩ s1 (.get req) none) with ⟨r1, w1⟩
    rw [hp] at h1 h2
    simp only [World.record, List.nil_append] at h1
    simp only at h2
    cases r1 with
    | some e1 =>
      obtain ⟨hrule, pre1, call, hevs, hok⟩ := h2
      simp only [Reconcile, hg, hp] at htrace ⊢
      rw [h1, hevs, ← List.append_assoc] at htrace
      have h3 := last_failure htrace (by
        intro y hy
        rcases List.mem_append.1 hy with h | h
        · simp only [List.mem_singleton] at h
          rw [h]
        · exact hok y h) hne
      have he : e1 = e := by
        have h4 := h3.2.2
        rw [h4] at herr
        simpa using herr
      refine ⟨by rw [he], h3.1, ?_, ?_⟩
      · rw [h3.2.1]
        intro y hy
        rcases List.mem_append.1 hy with h | h
        · simp only [List.mem_singleton] at h
          rw [h]
        · exact hok y h
      · rw [h1]
        have := statusUpdateCalls_of_ruleCalls hrule
        simp only [statusUpdateCalls, List.filterMap_append] at this ⊢
        rw [this]
        simp
    | none =>
      obtain ⟨hrule, hok⟩ := h2
      exfalso
      rcases hu : c.statusUpdate w1.state
        { sidecar with Conditions := sidecar.Conditions ++
            [reconciledCondition sidecar (c.now w1.state)] } with ⟨r2, s2⟩
      simp only [Reconcile, hg, hp, hu] at htrace
      have htr : ∃ x : Event, x.call.isRuleCall = false ∧
          (⟨.get req, none⟩ :: evs) ++ [x] = pre ++ ev :: post := by
        cases r2 with
        | some e2 =>
          simp only [World.record, h1] at htrace
          exact ⟨⟨.statusUpdate _, some e2⟩, rfl, by simpa using htrace⟩
        | none =>
          simp only [World.record, h1] at htrace
          exact ⟨⟨.statusUpdate _, none⟩, rfl, by simpa using htrace⟩
      obtain ⟨x, hx, hxe⟩ := htr
      have h3 := last_failure hxe (by
        intro y hy
        rcases List.mem_cons.1 hy with h | h
        · rw [h]
        · exact hok y h) hne
      rw [h3.2.2, hx] at hcall
      exact Bool.noConfusion hcall


theorem deleteCalls_append (t1 t2 : List Event) :
    deleteCalls (t1 ++ t2) = deleteCalls t1 ++ deleteCalls t2 := by
  simp [deleteCalls, List.filterMap_append]

theorem statusUpdateCalls_append (t1 t2 : List Event) :
    statusUpdateCalls (t1 ++ t2) = statusUpdateCalls t1 ++ statusUpdateCalls t2 := by
  simp [statusUpdateCalls, List.filterMap_append]

theorem buildRequirements_fst (validate : String → String → Option Err) (m : LabelMap)
    (acc : List Requirement) {τ : Type} (w : World σ) (w1 : World τ) :
    (buildRequirements validate m acc w).1 = (buildRequirements validate m acc w1).1 := by
  induction m generalizing acc w w1 with
  | nil => rfl
  | cons kv rest ih =>
    obtain ⟨key, value⟩ := kv
    cases h : NewRequirement validate key value with
    | error err => simp [buildRequirements, h]
    | ok requirement =>
      simp only [buildRequirements, h]
      exact ih _ _ _

theorem buildSelector_fst (validate : String → String → Option Err) (m : LabelMap)
    {τ : Type} (w : World σ) (w1 : World τ) :
    (buildSelector validate m w).1 = (buildSelector validate m w1).1 := by
  unfold buildSelector
  split
  · rfl
  · have h := buildRequirements_fst validate m [] w w1
    rcases h1 : buildRequirements validate m [] w with ⟨r, w2⟩
    rcases h2 : buildRequirements validate m [] w1 with ⟨r1, w3⟩
    rw [h1, h2] at h
    simp only at h
    subst h
    cases r <;> rfl

theorem buildRequirements_calls (validate : String → String → Option Err) (m : LabelMap)
    (acc : List Requirement) (w : World σ) :
    ∃ evs, (buildRequirements validate m acc w).2.trace = w.trace ++ evs ∧
      ∀ ev ∈ evs, ∃ k v, ev.call = .newRequirement k v := by
  induction m generalizing acc w with
  | nil => exact ⟨[], by simp [buildRequirements], by simp⟩
  | cons kv rest ih =>
    obtain ⟨key, value⟩ := kv
    cases h : NewRequirement validate key value with
    | error err =>
      exact ⟨[⟨.newRequirement key value, some err⟩], by simp [buildRequirements, h, World.record],
        by simp⟩
    | ok requirement =>
      obtain ⟨evs, h1, h2⟩ := ih (acc ++ [requirement])
        (w.record w.state (.newRequirement key value) none)
      refine ⟨⟨.newRequirement key value, none⟩ :: evs, ?_, ?_⟩
      · simp only [buildRequirements, h, h1]
        simp [World.record]
      · intro ev hev
        rcases List.mem_cons.1 hev with h3 | h3
        · exact ⟨key, value, by rw [h3]⟩
        · exact h2 ev h3

theorem buildSelector_calls (validate : String → String → Option Err) (m : LabelMap)
    (w : World σ) :
    ∃ evs, (buildSelector validate m w).2.trace = w.trace ++ evs ∧
      ∀ ev ∈ evs, ∃ k v, ev.call = .newRequirement k v := by
  unfold buildSelector
  split
  · exact ⟨[], by simp, by simp⟩
  · obtain ⟨evs, h1, h2⟩ := buildRequirements_calls validate m [] w
    rcases h : buildRequirements validate m [] w with ⟨r, w1⟩
    rw [h] at h1
    cases r with
    | error err => exact ⟨evs, h1, h2⟩
    | ok reqs => exact ⟨evs, h1, h2⟩

theorem deleteCalls_newRequirement {evs : List Event}
    (h : ∀ ev ∈ evs, ∃ k v, ev.call = .newRequirement k v) : deleteCalls evs = [] := by
  induction evs with
  | nil => rfl
  | cons ev rest ih =>
    obtain ⟨k, v, hk⟩ := h ev (List.mem_cons_self _ _)
    have h2 := ih (fun z hz => h z (List.mem_cons_of_mem _ hz))
    simp only [deleteCalls, List.filterMap_cons, hk] at h2 ⊢
    exact h2

theorem deletePods_ok (c : Client σ) (pods : List Pod) (w w1 : World σ)
    (h : deletePods c pods w = (none, w1)) :
    w1.state = afterDeletes c w.state pods ∧
      deleteCalls w1.trace = deleteCalls w.trace ++ pods := by
  induction pods generalizing w with
  | nil =>
    simp only [deletePods, Prod.mk.injEq, true_and] at h
    subst h
    simp [afterDeletes]
  | cons pod rest ih =>
    rcases hd : c.delete w.state pod with ⟨r, s⟩
    cases r with
    | some err => simp [deletePods, hd] at h
    | none =>
      simp only [deletePods, hd] at h
      obtain ⟨h1, h2⟩ := ih _ h
      refine ⟨?_, ?_⟩
      · rw [h1]
        simp [afterDeletes, World.record, hd]
      · rw [h2]
        simp [World.record, deleteCalls_append, deleteCalls]

theorem cullNamespaces_ok (c : Client σ) (sel : Selector) (nss : List String) (w w1 : World σ)
    (h : cullNamespaces c sel nss w = (none, w1)) :
    w1.state = (specCull c sel nss w.state).2 ∧
      deleteCalls w1.trace = deleteCalls w.trace ++ (specCull c sel nss w.state).1 := by
  induction nss generalizing w with
  | nil =>
    simp only [cullNamespaces, Prod.mk.injEq, true_and] at h
    subst h
    simp [specCull]
  | cons ns rest ih =>
    rcases hl : c.listPods w.state ns sel with ⟨r, s⟩
    cases r with
    | error err => simp [cullNamespaces, hl] at h
    | ok items =>
      rcases hd : deletePods c items (w.record s (.listPods ns sel) none) with ⟨r1, w2⟩
      cases r1 with
      | some err => simp [cullNamespaces, hl, hd] at h
      | none =>
        simp only [cullNamespaces, hl, hd] at h
        obtain ⟨h1, h2⟩ := ih _ h
        obtain ⟨h3, h4⟩ := deletePods_ok c items _ _ hd
        simp only [World.record] at h3 h4
        refine ⟨?_, ?_⟩
        · rw [h1, h3]
          simp [specCull, hl, listed]
        · rw [h2, h4, h3]
          simp [specCull, hl, listed, deleteCalls_append, deleteCalls]

theorem resolveNamespaces_ok (c : Client σ) (rule : DeleteRules) (w w1 : World σ)
    (nss : List String) (h : resolveNamespaces c rule w = (.ok nss, w1)) :
    nss = resolveSpec rule.Namespace (listed (c.listNamespaces w.state).1) ∧
      w1.state = (if rule.Namespace = "*" then (c.listNamespaces w.state).2 else w.state) ∧
      deleteCalls w1.trace = deleteCalls w.trace := by
  unfold resolveNamespaces at h
  by_cases hs : rule.Namespace = "*"
  · rw [if_pos hs] at h
    rcases hl : c.listNamespaces w.state with ⟨r, s⟩
    rw [hl] at h
    cases r with
    | error err => simp at h
    | ok items =>
      simp only [Prod.mk.injEq, Except.ok.injEq, List.nil_append] at h
      obtain ⟨h1, h2⟩ := h
      subst h1 h2
      simp [resolveSpec, hs, listed, World.record, deleteCalls_append, deleteCalls]
  · rw [if_neg hs] at h
    simp only [Prod.mk.injEq, Except.ok.injEq, List.nil_append] at h
    obtain ⟨h1, h2⟩ := h
    subst h1 h2
    simp [resolveSpec, hs]

theorem processRules_ok (c : Client σ) (validate : String → String → Option Err)
    (rules : List DeleteRules) (w w1 : World σ)
    (h : processRules c validate rules w = (none, w1)) :
    deleteCalls w1.trace = deleteCalls w.trace ++ specDeletes c validate rules w.state := by
  induction rules generalizing w with
  | nil =>
    simp only [processRules, Prod.mk.injEq, true_and] at h
    subst h
    simp [specDeletes]
  | cons rule rest ih =>
    rcases hp : processRule c validate rule w with ⟨r, w2⟩
    cases r with
    | some err => simp [processRules, hp] at h
    | none =>
      simp only [processRules, hp] at h
      have h1 := ih _ h
      unfold processRule at hp
      rcases hr : resolveNamespaces c rule w with ⟨r1, w3⟩
      rw [hr] at hp
      cases r1 with
      | error err => simp at hp
      | ok nss =>
        simp only at hp
        obtain ⟨h2, h3, h4⟩ := resolveNamespaces_ok c rule w w3 nss hr
        obtain ⟨evs, h5, h6, _⟩ := buildSelector_added validate rule.Labels w3
        obtain ⟨evs1, h7, h8⟩ := buildSelector_calls validate rule.Labels w3
        have h9 := buildSelector_fst validate rule.Labels w3
          (⟨(if rule.Namespace = "*" then (c.listNamespaces w.state).2 else w.state), []⟩ : World σ)
        rcases hb : buildSelector validate rule.Labels w3 with ⟨r2, w4⟩
        rw [hb] at hp h6 h7 h9
        simp only at h6 h7 h9
        cases r2 with
        | error err => simp at hp
        | ok sel =>
          simp only at hp
          obtain ⟨h10, h11⟩ := cullNamespaces_ok c sel nss w4 w2 hp
          rw [h1, h11, h7, deleteCalls_append, deleteCalls_newRequirement h8, h4, h10, h6, h3,
            h2]
          simp only [specDeletes, ← h9, List.append_nil, List.append_assoc]

theorem reconcile_of_rules_err (c : Client σ) (validate : String → String → Option Err)
    (req : NamespacedName) (s s1 : σ) (sidecar : Sidecar) (e : Err) (w1 : World σ)
    (hget : c.get s req = (.ok sidecar, s1))
    (hp : processRules c validate sidecar.DeleteRules
      (World.record ⟨s, []⟩ s1 (.get req) none) = (some e, w1)) :
    Reconcile c validate req ⟨s, []⟩ = ((⟨false, 0⟩, some e), w1) := by
  simp only [Reconcile, hget, hp]

theorem reconcile_of_rules_ok (c : Client σ) (validate : String → String → Option Err)
    (req : NamespacedName) (s s1 : σ) (sidecar : Sidecar) (w1 : World σ)
    (hget : c.get s req = (.ok sidecar, s1))
    (hp : processRules c validate sidecar.DeleteRules
      (World.record ⟨s, []⟩ s1 (.get req) none) = (none, w1)) :
    Reconcile c validate req ⟨s, []⟩ =
      ((⟨false, 0⟩, (c.statusUpdate w1.state { sidecar with Conditions := sidecar.Conditions ++
          [reconciledCondition sidecar (c.now w1.state)] }).1),
        w1.record (c.statusUpdate w1.state { sidecar with Conditions := sidecar.Conditions ++
          [reconciledCondition sidecar (c.now w1.state)] }).2
          (.statusUpdate { sidecar with Conditions := sidecar.Conditions ++
          [reconciledCondition sidecar (c.now w1.state)] })
          (c.statusUpdate w1.state { sidecar with Conditions := sidecar.Conditions ++
          [reconciledCondition sidecar (c.now w1.state)] }).1) := by
  simp only [Reconcile, hget, hp]
  rcases hu : c.statusUpdate w1.state
    { sidecar with Conditions := sidecar.Conditions ++
        [reconciledCondition sidecar (c.now w1.state)] } with ⟨r2, s2⟩
  cases r2 <;> rfl

/-- If every rule call in the trace of a reconcile succeeded, the loop over the rules returned
no error. -/
theorem rules_ok_of_trace_ok (c : Client σ) (validate : String → String → Option Err)
    (req : NamespacedName) (s s1 : σ) (sidecar : Sidecar)
    (hget : c.get s req = (.ok sidecar, s1))
    (hok : ∀ ev ∈ (Reconcile c validate req ⟨s, []⟩).2.trace,
      ev.call.isRuleCall = true → ev.err = none) :
    ∃ w1 evs, processRules c validate sidecar.DeleteRules
        (World.record ⟨s, []⟩ s1 (.get req) none) = (none, w1) ∧
      w1.trace = ⟨.get req, none⟩ :: evs ∧ ∀ ev ∈ evs, ev.call.isRuleCall = true := by
  obtain ⟨evs, h1, h2⟩ := processRules_added c validate sidecar.DeleteRules
    (World.record ⟨s, []⟩ s1 (.get req) none)
  rcases hp : processRules c validate sidecar.DeleteRules
    (World.record ⟨s, []⟩ s1 (.get req) none) with ⟨r1, w1⟩
  rw [hp] at h1 h2
  simp only [World.record, List.nil_append] at h1
  simp only at h2
  cases r1 with
  | some e1 =>
    exfalso
    obtain ⟨hrule, pre1, call, hevs, _⟩ := h2
    rw [reconcile_of_rules_err c validate req s s1 sidecar e1 w1 hget hp] at hok
    have hmem : (⟨call, some e1⟩ : Event) ∈ w1.trace := by
      rw [h1, hevs]
      simp
    have hc : call.isRuleCall = true := hrule ⟨call, some e1⟩ (by rw [hevs]; simp)
    have := hok _ hmem hc
    simp at this
  | none => exact ⟨w1, evs, rfl, by simpa using h1, h2.1⟩

/-- C7: on a reconcile whose fetch succeeded and whose rule calls all succeeded, the status
update is called exactly once, and the resource submitted is the one read with exactly one
condition appended at the end of its condition list, of type "Reconciled", status true and
reason "Reconciled"; the earlier conditions stay as they were. -/
theorem reconcile_appends_one_condition (c : Client σ)
    (validate : String → String → Option Err) (req : NamespacedName) (s s1 : σ)
    (sidecar : Sidecar) (hget : c.get s req = (.ok sidecar, s1))
    (hok : ∀ ev ∈ (Reconcile c validate req ⟨s, []⟩).2.trace,
      ev.call.isRuleCall = true → ev.err = none) :
    ∃ cond : Condition, cond.Type_ = "Reconciled" ∧ cond.Status = .ConditionTrue ∧
      cond.Reason = "Reconciled" ∧
      statusUpdateCalls (Reconcile c validate req ⟨s, []⟩).2.trace =
        [{ sidecar with Conditions := sidecar.Conditions ++ [cond] }] := by
  obtain ⟨w1, evs, hp, h1, hrule⟩ := rules_ok_of_trace_ok c validate req s s1 sidecar hget hok
  refine ⟨reconciledCondition sidecar (c.now w1.state), rfl, rfl, rfl, ?_⟩
  rw [reconcile_of_rules_ok c validate req s s1 sidecar w1 hget hp]
  have hs := statusUpdateCalls_of_ruleCalls hrule
  simp only [World.record, h1, statusUpdateCalls_append]
  simp only [statusUpdateCalls, List.filterMap_cons] at hs ⊢
  rw [hs]
  simp

theorem specCull_mem (c : Client σ) (hf : ListsInNamespace c) (sel : Selector)
    (nss : List String) (s : σ) (p : Pod) (hp : p ∈ (specCull c sel nss s).1) :
    sel.Matches p.Labels = true ∧ (p.Namespace ∈ nss ∨ "" ∈ nss) := by
  induction nss generalizing s with
  | nil => simp [specCull] at hp
  | cons ns rest ih =>
    simp only [specCull, List.mem_append] at hp
    rcases hp with h | h
    · rcases hl : c.listPods s ns sel with ⟨r, s1⟩
      rw [hl] at h
      cases r with
      | error err => simp [listed] at h
      | ok items =>
        obtain ⟨h1, h2⟩ := hf s ns sel items s1 hl p h
        refine ⟨h1, ?_⟩
        rcases h2 with h3 | h3
        · exact Or.inr (by rw [h3]; exact List.mem_cons_self _ _)
        · exact Or.inl (by rw [h3]; exact List.mem_cons_self _ _)
    · obtain ⟨h1, h2⟩ := ih _ h
      refine ⟨h1, ?_⟩
      rcases h2 with h3 | h3
      · exact Or.inl (List.mem_cons_of_mem _ h3)
      · exact Or.inr (List.mem_cons_of_mem _ h3)

theorem specDeletes_mem (c : Client σ) (validate : String → String → Option Err)
    (hf : ListsInNamespace c) (rules : List DeleteRules) (s : σ) (p : Pod)
    (hp : p ∈ specDeletes c validate rules s) :
    ∃ rule ∈ rules, ∃ selector s1,
      (buildSelector validate rule.Labels (⟨(), []⟩ : World Unit)).1 = .ok selector ∧
      selector.Matches p.Labels = true ∧
      (p.Namespace ∈ resolveSpec rule.Namespace (listed (c.listNamespaces s1).1) ∨
        "" ∈ resolveSpec rule.Namespace (listed (c.listNamespaces s1).1)) := by
  induction rules generalizing s with
  | nil => simp [specDeletes] at hp
  | cons rule rest ih =>
    simp only [specDeletes] at hp
    have hfst := buildSelector_fst validate rule.Labels
      (⟨if rule.Namespace = "*" then (c.listNamespaces s).2 else s, []⟩ : World σ)
      (⟨(), []⟩ : World Unit)
    cases hb : (buildSelector validate rule.Labels
      (⟨if rule.Namespace = "*" then (c.listNamespaces s).2 else s, []⟩ : World σ)).1 with
    | error err =>
      rw [hb] at hp
      simp at hp
    | ok sel =>
      rw [hb] at hp hfst
      simp only [List.mem_append] at hp
      rcases hp with h | h
      · obtain ⟨h1, h2⟩ := specCull_mem c hf sel _ _ p h
        exact ⟨rule, List.mem_cons_self _ _, sel, s, hfst.symm, h1, h2⟩
      · obtain ⟨rule1, h1, h2⟩ := ih _ h
        exact ⟨rule1, List.mem_cons_of_mem _ h1, h2⟩

theorem cluster_listsInNamespace : ListsInNamespace Cluster.client := by
  intro s ns sel items s1 h p hp
  change Cluster.listPods s ns sel = _ at h
  simp only [Cluster.listPods, Prod.mk.injEq, Except.ok.injEq] at h
  rw [← h.1] at hp
  have h1 := (List.mem_filter.1 hp).2
  simp only [Pod.listedUnder, Bool.and_eq_true, Bool.or_eq_true, beq_iff_eq] at h1
  exact ⟨h1.2, h1.1⟩

/-- C1 (amended): on a reconcile whose fetch succeeded and whose namespace lists, requirement
constructions, pod lists and pod deletes all succeeded, the sequence of pod delete calls is
exactly: for each delete rule in declared order, for each resolved namespace in resolution
order, the pods returned by listing that namespace under the selector of the rule, in listing
order.  Hence, when the pod list returns only pods that match the selector and lie in the
listed namespace, the empty name listing every namespace, every pod of a delete call matches
the selector of one of the rules, and lies in a namespace that rule resolved to unless the
rule resolved to the empty name. -/
theorem reconcile_delete_sequence (c : Client σ) (validate : String → String → Option Err)
    (req : NamespacedName) (s s1 : σ) (sidecar : Sidecar)
    (hget : c.get s req = (.ok sidecar, s1))
    (hok : ∀ ev ∈ (Reconcile c validate req ⟨s, []⟩).2.trace,
      ev.call.isRuleCall = true → ev.err = none) :
    deleteCalls (Reconcile c validate req ⟨s, []⟩).2.trace =
      specDeletes c validate sidecar.DeleteRules s1 ∧
    (ListsInNamespace c → ∀ p ∈ deleteCalls (Reconcile c validate req ⟨s, []⟩).2.trace,
      ∃ rule ∈ sidecar.DeleteRules, ∃ selector s2,
        (buildSelector validate rule.Labels (⟨(), []⟩ : World Unit)).1 = .ok selector ∧
        selector.Matches p.Labels = true ∧
        (p.Namespace ∈ resolveSpec rule.Namespace (listed (c.listNamespaces s2).1) ∨
          "" ∈ resolveSpec rule.Namespace (listed (c.listNamespaces s2).1))) := by
  obtain ⟨w1, evs, hp, _, _⟩ := rules_ok_of_trace_ok c validate req s s1 sidecar hget hok
  have h3 := processRules_ok c validate sidecar.DeleteRules _ w1 hp
  have heq : deleteCalls (Reconcile c validate req ⟨s, []⟩).2.trace =
      specDeletes c validate sidecar.DeleteRules s1 := by
    rw [reconcile_of_rules_ok c validate req s s1 sidecar w1 hget hp]
    simp only [World.record, List.nil_append] at h3 ⊢
    rw [deleteCalls_append, h3]
    simp [deleteCalls]
  refine ⟨heq, ?_⟩
  intro hf p hp1
  rw [heq] at hp1
  exact specDeletes_mem c validate hf sidecar.DeleteRules s1 p hp1

/-- C1 (as stated) fails in its second half.  With the single rule of namespace `""` and no
labels, every call of the reconcile succeeds, the rule resolves to the one name `""`, the pod
list for `""` spans every namespace, and the pods of the namespaces `a` and `b`, neither of
which is a resolved namespace, are deleted. -/
theorem reconcile_empty_namespace_deletes_everywhere :
    (∀ ev ∈ (Reconcile Cluster.client sampleValidate scenarioKey
        ⟨scenarioEmptyNamespace, []⟩).2.trace, ev.err = none) ∧
    (resolveNamespaces Cluster.client ⟨"", []⟩ ⟨scenarioEmptyNamespace, []⟩).1 = .ok [""] ∧
    listPodsCalls (Reconcile Cluster.client sampleValidate scenarioKey
      ⟨scenarioEmptyNamespace, []⟩).2.trace = [("", Everything)] ∧
    deleteCalls (Reconcile Cluster.client sampleValidate scenarioKey
      ⟨scenarioEmptyNamespace, []⟩).2.trace = [podA, podB] ∧
    (Reconcile Cluster.client sampleValidate scenarioKey
      ⟨scenarioEmptyNamespace, []⟩).2.state.pods = [] ∧
    podA.Namespace ∉ resolveSpec "" scenarioEmptyNamespace.namespaces ∧
    podB.Namespace ∉ resolveSpec "" scenarioEmptyNamespace.namespaces := by
  refine ⟨by decide, rfl, by decide, by decide, by decide, by decide, by decide⟩

theorem lookup_mem {k v : String} {m : LabelMap} (h : m.lookup k = some v) : (k, v) ∈ m := by
  induction m with
  | nil => simp at h
  | cons kv rest ih =>
    obtain ⟨a, b⟩ := kv
    by_cases hk : k = a
    · subst hk
      simp only [List.lookup_cons, beq_self_eq_true, Option.some.injEq] at h
      subst h
      exact List.mem_cons_self _ _
    · have hb : (k == a) = false := by simpa using hk
      simp only [List.lookup_cons, hb] at h
      exact List.mem_cons_of_mem _ (ih h)

theorem index_wildcard_mem {m : LabelMap} (h : m.index "*" = "*") : ("*", "*") ∈ m := by
  unfold LabelMap.index at h
  cases hl : m.lookup "*" with
  | none =>
    rw [hl] at h
    simp at h
  | some v =>
    rw [hl] at h
    simp only [Option.getD_some] at h
    subst h
    exact lookup_mem hl

theorem buildRequirements_ok_eq (validate : String → String → Option Err) (m : LabelMap)
    (acc reqs : List Requirement) (w : World σ)
    (h : (buildRequirements validate m acc w).1 = .ok reqs) :
    reqs = acc ++ m.map (fun kv => ⟨kv.1, kv.2⟩) := by
  induction m generalizing acc w with
  | nil =>
    simp only [buildRequirements, Except.ok.injEq] at h
    simp [h]
  | cons kv rest ih =>
    obtain ⟨key, value⟩ := kv
    cases hv : validate key value with
    | some err => simp [buildRequirements, NewRequirement, hv] at h
    | none =>
      simp only [buildRequirements, NewRequirement, hv] at h
      have := ih _ _ h
      simpa using this

theorem buildRequirements_valid (validate : String → String → Option Err) (m : LabelMap)
    (acc : List Requirement) (w : World σ) (hv : ∀ kv ∈ m, validate kv.1 kv.2 = none) :
    (buildRequirements validate m acc w).1 = .ok (acc ++ m.map (fun kv => ⟨kv.1, kv.2⟩)) := by
  induction m generalizing acc w with
  | nil => simp [buildRequirements]
  | cons kv rest ih =>
    obtain ⟨key, value⟩ := kv
    have h1 : validate key value = none := hv (key, value) (List.mem_cons_self _ _)
    simp only [buildRequirements, NewRequirement, h1]
    rw [ih _ _ (fun z hz => hv z (List.mem_cons_of_mem _ hz))]
    simp

theorem buildSelector_of_not_everything (validate : String → String → Option Err)
    (m : LabelMap) (w : World σ) (h : ¬ (m = [] ∨ m.index "*" = "*")) :
    (buildSelector validate m w).1 =
      ((buildRequirements validate m [] w).1.map (fun reqs => NewSelector.Add reqs)) := by
  have h1 : ¬ (m.length = 0 ∨ m.index "*" = "*") := by
    simpa [List.length_eq_zero] using h
  unfold buildSelector
  rw [if_neg h1]
  rcases hb : buildRequirements validate m [] w with ⟨r, w1⟩
  cases r <;> rfl

theorem selector_matches_map (m : LabelMap) (ls : LabelMap) :
    (NewSelector.Add (m.map (fun kv => (⟨kv.1, kv.2⟩ : Requirement)))).Matches ls = true ↔
      ∀ kv ∈ m, ls.lookup kv.1 = some kv.2 := by
  simp only [Selector.Matches, Selector.Add, NewSelector, Requirement.Matches, List.all_eq_true,
    List.nil_append, List.mem_map, beq_iff_eq]
  constructor
  · intro h kv hkv
    exact h ⟨kv.1, kv.2⟩ ⟨kv, hkv, rfl⟩
  · rintro h r ⟨kv, hkv, rfl⟩
    exact h kv hkv

/-- C8: namespace resolution agrees with the reference definition.  For a literal namespace the
result is the one-element list holding that name, whatever the cluster holds, and the world is
left as it was (the namespace list is not queried).  For the wildcard the result is the names
of the namespaces returned by the namespace list issued at that moment, in listing order. -/
theorem resolveNamespaces_eq_spec (c : Client σ) (rule : DeleteRules) (w : World σ) :
    (rule.Namespace ≠ "*" →
      resolveNamespaces c rule w = (.ok [rule.Namespace], w) ∧
      ∀ live, resolveSpec rule.Namespace live = [rule.Namespace]) ∧
    (rule.Namespace = "*" → ∀ items s, c.listNamespaces w.state = (.ok items, s) →
      resolveNamespaces c rule w =
        (.ok (resolveSpec rule.Namespace items), w.record s .listNamespaces none) ∧
      resolveSpec rule.Namespace items = items.map (fun n => n.Name)) := by
  refine ⟨?_, ?_⟩
  · intro h
    simp [resolveNamespaces, resolveSpec, h]
  · intro h items s hl
    simp [resolveNamespaces, resolveSpec, h, hl]

/-- C2 (amended): the selector builder returns the match-all selector if and only if the label
mapping is empty or maps the key "*" to the value "*", whatever other entries it holds.  For
every other mapping a selector that is built has exactly one equality requirement per
(key, value) pair of the mapping, and it is built whenever every pair passes validation. -/
theorem buildSelector_everything_iff (validate : String → String → Option Err) (m : LabelMap)
    (w : World σ) :
    ((buildSelector validate m w).1 = .ok Everything ↔ (m = [] ∨ m.index "*" = "*")) ∧
    (¬ (m = [] ∨ m.index "*" = "*") →
      (∀ selector, (buildSelector validate m w).1 = .ok selector →
        selector.requirements = m.map (fun kv => ⟨kv.1, kv.2⟩)) ∧
      ((∀ kv ∈ m, validate kv.1 kv.2 = none) →
        (buildSelector validate m w).1 = .ok ⟨m.map (fun kv => ⟨kv.1, kv.2⟩)⟩)) := by
  have key : ¬ (m = [] ∨ m.index "*" = "*") →
      (∀ selector, (buildSelector validate m w).1 = .ok selector →
        selector.requirements = m.map (fun kv => ⟨kv.1, kv.2⟩)) := by
    intro h selector hs
    rw [buildSelector_of_not_everything validate m w h] at hs
    cases hb : (buildRequirements validate m [] w).1 with
    | error err =>
      rw [hb] at hs
      simp [Except.map] at hs
    | ok reqs =>
      rw [hb] at hs
      simp only [Except.map, Except.ok.injEq] at hs
      have := buildRequirements_ok_eq validate m [] reqs w hb
      subst hs
      simpa [Selector.Add, NewSelector] using this
  refine ⟨⟨?_, ?_⟩, fun h => ⟨key h, ?_⟩⟩
  · intro h
    by_contra hne
    have h1 := key hne Everything h
    have h2 : m ≠ [] := fun h3 => hne (Or.inl h3)
    cases m with
    | nil => exact h2 rfl
    | cons kv rest => simp [Everything] at h1
  · intro h
    have h1 : m.length = 0 ∨ m.index "*" = "*" := by
      simpa [List.length_eq_zero] using h
    unfold buildSelector
    rw [if_pos h1]
  · intro hv
    rw [buildSelector_of_not_everything validate m w h,
      buildRequirements_valid validate m [] w hv]
    simp [Except.map, Selector.Add, NewSelector]

/-- C9: for the empty label mapping and for the mapping that holds only "*" -> "*", the built
selector matches every label set.  For a non-empty mapping of valid pairs none of which is
"*" -> "*", visited in any order, the selector is built and matches a label set if and only if
the label set carries every key of the mapping with exactly the mapped value. -/
theorem buildSelector_matches (validate : String → String → Option Err) (w : World σ) :
    (∀ m : LabelMap, (m = [] ∨ m = [("*", "*")]) →
      ∃ selector, (buildSelector validate m w).1 = .ok selector ∧
        ∀ ls : LabelMap, selector.Matches ls = true) ∧
    (∀ m visited : LabelMap, m ≠ [] → (∀ kv ∈ m, validate kv.1 kv.2 = none) →
      (∀ kv ∈ m, kv ≠ ("*", "*")) → visited.Perm m →
      ∃ selector, (buildSelector validate visited w).1 = .ok selector ∧
        ∀ ls : LabelMap, (selector.Matches ls = true ↔
          ∀ kv ∈ m, ls.lookup kv.1 = some kv.2)) := by
  refine ⟨?_, ?_⟩
  · intro m hm
    refine ⟨Everything, ?_, fun ls => by simp [Selector.Matches, Everything]⟩
    rcases hm with h | h
    · subst h
      simp [buildSelector]
    · subst h
      simp [buildSelector, LabelMap.index, List.lookup]
  · intro m visited hne hv hw hperm
    have h1 : ¬ (visited = [] ∨ visited.index "*" = "*") := by
      rintro (h | h)
      · subst h
        exact hne (List.perm_nil.1 hperm.symm)
      · exact hw _ (hperm.mem_iff.1 (index_wildcard_mem h)) rfl
    have h2 : ∀ kv ∈ visited, validate kv.1 kv.2 = none :=
      fun kv hkv => hv kv (hperm.mem_iff.1 hkv)
    refine ⟨NewSelector.Add (visited.map (fun kv => ⟨kv.1, kv.2⟩)), ?_, ?_⟩
    · rw [buildSelector_of_not_everything validate visited w h1,
        buildRequirements_valid validate visited [] w h2]
      simp [Except.map]
    · intro ls
      rw [selector_matches_map]
      constructor
      · intro h kv hkv
        exact h kv (hperm.mem_iff.2 hkv)
      · intro h kv hkv
        exact h kv (hperm.mem_iff.1 hkv)



/-- C3: in scenario B (one rule with the wildcard namespace, namespaces `a` and `b`) the
reconcile succeeds, lists and culls the two namespaces, and the message of the appended
condition reports the count 1, the number of delete rules, where the number of namespaces
processed is 2. -/
theorem reconcile_message_counts_rules :
    (Reconcile Cluster.client sampleValidate scenarioKey ⟨scenarioB, []⟩).1.2 = none ∧
    listPodsCalls (Reconcile Cluster.client sampleValidate scenarioKey ⟨scenarioB, []⟩).2.trace =
      [("a", Everything), ("b", Everything)] ∧
    deleteCalls (Reconcile Cluster.client sampleValidate scenarioKey ⟨scenarioB, []⟩).2.trace =
      [podA, podB] ∧
    (statusUpdateCalls
      (Reconcile Cluster.client sampleValidate scenarioKey ⟨scenarioB, []⟩).2.trace).map
        (fun sc => sc.Conditions.map (fun cond => cond.Message)) =
      [["Processed DeleteRules for 1 namespaces"]] ∧
    conditionMessage 2 = "Processed DeleteRules for 2 namespaces" := by
  decide

/-- C2 (as stated) fails: the mapping with the entries "*" -> "*" and "app" -> "x" is neither
empty nor a single wildcard entry, and the selector built for it is the match-all selector,
with no requirement for "app" -> "x", in either visiting order. -/
theorem buildSelector_wildcard_among_others :
    ¬ ((buildSelector (fun _ _ => none) [("*", "*"), ("app", "x")] (⟨(), []⟩ : World Unit)).1 =
        .ok Everything ↔
      (([("*", "*"), ("app", "x")] : LabelMap) = [] ∨
        ([("*", "*"), ("app", "x")] : LabelMap) = [("*", "*")])) ∧
    (buildSelector (fun _ _ => none) [("app", "x"), ("*", "*")] (⟨(), []⟩ : World Unit)).1 =
      .ok Everything ∧
    Everything.requirements = [] := by
  refine ⟨?_, rfl, rfl⟩
  intro h
  have h1 := h.1 rfl
  revert h1
  decide

/-- C6 (as stated) fails.  In scenario D the rule with the empty label key comes after a rule
that matches `p1`: the reconcile returns the validation error, and `p1` has been deleted.  In
the variant where the mapping also holds "*" -> "*", the reconcile returns no error, deletes
both pods and updates the status. -/
theorem reconcile_invalid_key_after_deletes :
    ((Reconcile Cluster.client sampleValidate scenarioKey ⟨scenarioD, []⟩).1.2 =
        some ⟨"Invalid", "invalid label key"⟩ ∧
      deleteCalls (Reconcile Cluster.client sampleValidate scenarioKey ⟨scenarioD, []⟩).2.trace =
        [podP1] ∧
      (Reconcile Cluster.client sampleValidate scenarioKey ⟨scenarioD, []⟩).2.state.pods =
        [podP2]) ∧
    ((Reconcile Cluster.client sampleValidate scenarioKey ⟨scenarioDWildcard, []⟩).1.2 = none ∧
      deleteCalls
        (Reconcile Cluster.client sampleValidate scenarioKey ⟨scenarioDWildcard, []⟩).2.trace =
        [podP1, podP2] ∧
      (statusUpdateCalls
        (Reconcile Cluster.client sampleValidate scenarioKey
          ⟨scenarioDWildcard, []⟩).2.trace).length = 1) := by
  decide

theorem processRules_append (c : Client σ) (validate : String → String → Option Err)
    (pre rest : List DeleteRules) (w w1 : World σ)
    (h : processRules c validate pre w = (none, w1)) :
    processRules c validate (pre ++ rest) w = processRules c validate rest w1 := by
  induction pre generalizing w with
  | nil =>
    simp only [processRules, Prod.mk.injEq, true_and] at h
    subst h
    rfl
  | cons rule pre1 ih =>
    rcases hp : processRule c validate rule w with ⟨r, w2⟩
    cases r with
    | some err => simp [processRules, hp] at h
    | none =>
      simp only [processRules, hp] at h
      simp only [List.cons_append, processRules, hp]
      exact ih _ h

theorem buildRequirements_invalid (validate : String → String → Option Err) (m : LabelMap)
    (acc : List Requirement) (w : World σ) (key value : String) (hmem : (key, value) ∈ m)
    (hinv : ∀ val, validate key val ≠ none) :
    ∃ kv ∈ m, ∃ e, validate kv.1 kv.2 = some e ∧
      (buildRequirements validate m acc w).1 = .error e := by
  induction m generalizing acc w with
  | nil => simp at hmem
  | cons kv rest ih =>
    obtain ⟨k, v⟩ := kv
    cases hv : validate k v with
    | some err =>
      exact ⟨(k, v), List.mem_cons_self _ _, err, hv, by simp [buildRequirements, NewRequirement, hv]⟩
    | none =>
      have hrest : (key, value) ∈ rest := by
        rcases List.mem_cons.1 hmem with h | h
        · exfalso
          have h1 : key = k := congrArg Prod.fst h
          have h2 : value = v := congrArg Prod.snd h
          subst h1 h2
          exact hinv value hv
        · exact h
      obtain ⟨kv1, h1, e, h2, h3⟩ := ih (acc ++ [⟨k, v⟩])
        (w.record w.state (.newRequirement k v) none) hrest
      exact ⟨kv1, List.mem_cons_of_mem _ h1, e, h2, by
        simp only [buildRequirements, NewRequirement, hv]
        exact h3⟩

/-- C6 (amended): let a delete rule have a label mapping that contains an invalid key and does
not map "*" to "*".  If the fetch, the rules before it and the namespace resolution of the rule
succeed, then Reconcile returns the validation error of an entry of that mapping, the cluster
stays as it was when the selector construction began, no pod delete is issued from then on (so
none at all when the rule is the first one), and the status update is not called. -/
theorem reconcile_invalid_label_key (c : Client σ) (validate : String → String → Option Err)
    (req : NamespacedName) (s s1 : σ) (sidecar : Sidecar) (pre post : List DeleteRules)
    (rule : DeleteRules) (w1 w2 : World σ) (nss : List String) (key value : String)
    (hget : c.get s req = (.ok sidecar, s1))
    (hrules : sidecar.DeleteRules = pre ++ rule :: post)
    (hpre : processRules c validate pre (World.record ⟨s, []⟩ s1 (.get req) none) = (none, w1))
    (hns : resolveNamespaces c rule w1 = (.ok nss, w2))
    (hmem : (key, value) ∈ rule.Labels) (hinv : ∀ val, validate key val ≠ none)
    (hwild : rule.Labels.index "*" ≠ "*") :
    ∃ kv ∈ rule.Labels, ∃ e, validate kv.1 kv.2 = some e ∧
      (Reconcile c validate req ⟨s, []⟩).1.2 = some e ∧
      (Reconcile c validate req ⟨s, []⟩).2.state = w2.state ∧
      deleteCalls (Reconcile c validate req ⟨s, []⟩).2.trace = deleteCalls w1.trace ∧
      (pre = [] → deleteCalls (Reconcile c validate req ⟨s, []⟩).2.trace = []) ∧
      statusUpdateCalls (Reconcile c validate req ⟨s, []⟩).2.trace = [] := by
  have hne : ¬ (rule.Labels = [] ∨ rule.Labels.index "*" = "*") := by
    rintro (h | h)
    · rw [h] at hmem
      simp at hmem
    · exact hwild h
  obtain ⟨kv, hkv, e, hval, hb⟩ :=
    buildRequirements_invalid validate rule.Labels [] w2 key value hmem hinv
  have hsel : (buildSelector validate rule.Labels w2).1 = .error e := by
    rw [buildSelector_of_not_everything validate rule.Labels w2 hne, hb]
    rfl
  obtain ⟨evs, _, hstate, _⟩ := buildSelector_added validate rule.Labels w2
  obtain ⟨evs1, htr, hcalls⟩ := buildSelector_calls validate rule.Labels w2
  rcases hbs : buildSelector validate rule.Labels w2 with ⟨r, w3⟩
  rw [hbs] at hsel hstate htr
  simp only at hsel hstate htr
  subst hsel
  have hrule : processRule c validate rule w1 = (some e, w3) := by
    simp only [processRule, hns, hbs]
  have hall : processRules c validate sidecar.DeleteRules
      (World.record ⟨s, []⟩ s1 (.get req) none) = (some e, w3) := by
    rw [hrules, processRules_append c validate pre (rule :: post) _ w1 hpre]
    simp only [processRules, hrule]
  obtain ⟨evs2, h1, h2⟩ := processRules_added c validate sidecar.DeleteRules
    (World.record ⟨s, []⟩ s1 (.get req) none)
  rw [hall] at h1 h2
  simp only [World.record, List.nil_append] at h1
  have hdel : deleteCalls w3.trace = deleteCalls w1.trace := by
    rw [htr, deleteCalls_append, deleteCalls_newRequirement hcalls, List.append_nil]
    exact (resolveNamespaces_ok c rule w1 w2 nss hns).2.2
  refine ⟨kv, hkv, e, hval, ?_⟩
  rw [reconcile_of_rules_err c validate req s s1 sidecar e w3 hget hall]
  refine ⟨rfl, hstate, hdel, ?_, ?_⟩
  · intro hp
    subst hp
    simp only [processRules, Prod.mk.injEq, true_and] at hpre
    simp only [hdel, ← hpre, World.record]
    rfl
  · simp only [h1, statusUpdateCalls_append, statusUpdateCalls_of_ruleCalls h2.1]
    rfl


theorem sameIdentity_self (p : Pod) : p.sameIdentity p = true := by
  simp [Pod.sameIdentity]

theorem cluster_delete_ok {cl cl1 : Cluster} {pod : Pod}
    (h : Cluster.client.delete cl pod = (none, cl1)) :
    cl1 = { cl with pods := cl.pods.filter (fun p => !p.sameIdentity pod) } := by
  change Cluster.delete cl pod = (none, cl1) at h
  unfold Cluster.delete at h
  split at h
  · simp only [Prod.mk.injEq, true_and] at h
    exact h.symm
  · simp at h

theorem deletePods_cluster (pods : List Pod) (w w1 : World Cluster)
    (h : deletePods Cluster.client pods w = (none, w1)) :
    w1.state.namespaces = w.state.namespaces ∧ w1.state.sidecars = w.state.sidecars ∧
      w1.state.clock = w.state.clock ∧ (∀ q ∈ w1.state.pods, q ∈ w.state.pods) ∧
      ∀ p ∈ pods, ∀ q ∈ w1.state.pods, q.sameIdentity p = false := by
  induction pods generalizing w with
  | nil =>
    simp only [deletePods, Prod.mk.injEq, true_and] at h
    subst h
    simp
  | cons pod rest ih =>
    rcases hd : Cluster.client.delete w.state pod with ⟨r, s⟩
    cases r with
    | some err => simp [deletePods, hd] at h
    | none =>
      simp only [deletePods, hd] at h
      obtain ⟨h1, h2, h3, h4, h5⟩ := ih _ h
      have hs := cluster_delete_ok hd
      subst hs
      simp only [World.record] at h1 h2 h3 h4
      refine ⟨h1, h2, h3, ?_, ?_⟩
      · intro q hq
        exact (List.mem_filter.1 (h4 q hq)).1
      · intro p hp q hq
        rcases List.mem_cons.1 hp with hp1 | hp1
        · subst hp1
          have := (List.mem_filter.1 (h4 q hq)).2
          simpa using this
        · exact h5 p hp1 q hq

theorem cullNamespaces_cluster (sel : Selector) (nss : List String) (w w1 : World Cluster)
    (h : cullNamespaces Cluster.client sel nss w = (none, w1)) :
    w1.state.namespaces = w.state.namespaces ∧ w1.state.sidecars = w.state.sidecars ∧
      w1.state.clock = w.state.clock ∧ (∀ q ∈ w1.state.pods, q ∈ w.state.pods) ∧
      ∀ ns ∈ nss, ∀ q ∈ w1.state.pods, q.listedUnder ns sel = false := by
  induction nss generalizing w with
  | nil =>
    simp only [cullNamespaces, Prod.mk.injEq, true_and] at h
    subst h
    simp
  | cons ns rest ih =>
    have hl : Cluster.client.listPods w.state ns sel =
        (.ok (w.state.pods.filter (fun p => p.listedUnder ns sel)), w.state) := rfl
    rcases hd : deletePods Cluster.client
        (w.state.pods.filter (fun p => p.listedUnder ns sel))
        (w.record w.state (.listPods ns sel) none) with ⟨r1, w2⟩
    cases r1 with
    | some err => simp [cullNamespaces, hl, hd] at h
    | none =>
      simp only [cullNamespaces, hl, hd] at h
      obtain ⟨h1, h2, h3, h4, h5⟩ := ih _ h
      obtain ⟨g1, g2, g3, g4, g5⟩ := deletePods_cluster _ _ _ hd
      simp only [World.record] at g1 g2 g3 g4 g5
      refine ⟨h1.trans g1, h2.trans g2, h3.trans g3, fun q hq => g4 q (h4 q hq), ?_⟩
      intro ns1 hns1 q hq
      rcases List.mem_cons.1 hns1 with hn | hn
      · subst hn
        cases hlu : q.listedUnder ns1 sel with
        | false => rfl
        | true =>
          exfalso
          have hq3 : q ∈ w2.state.pods := h4 q hq
          have hq4 : q ∈ w.state.pods.filter (fun p => p.listedUnder ns1 sel) :=
            List.mem_filter.2 ⟨g4 q hq3, hlu⟩
          have := g5 q hq4 q hq3
          rw [sameIdentity_self] at this
          exact Bool.noConfusion this
      · exact h5 ns1 hn q hq

theorem cullNamespaces_culled (sel : Selector) (nss : List String) (w : World Cluster)
    (hc : ∀ ns ∈ nss, ∀ q ∈ w.state.pods, q.listedUnder ns sel = false) :
    ∃ w1, cullNamespaces Cluster.client sel nss w = (none, w1) ∧ w1.state = w.state ∧
      deleteCalls w1.trace = deleteCalls w.trace := by
  induction nss generalizing w with
  | nil => exact ⟨w, rfl, rfl, rfl⟩
  | cons ns rest ih =>
    have hf : w.state.pods.filter (fun p => p.listedUnder ns sel) = [] := by
      rw [List.filter_eq_nil_iff]
      intro q hq hm
      rw [hc ns (List.mem_cons_self _ _) q hq] at hm
      exact Bool.noConfusion hm
    have hl : Cluster.client.listPods w.state ns sel = (.ok [], w.state) := by
      change Cluster.listPods w.state ns sel = _
      simp only [Cluster.listPods, hf]
    obtain ⟨w1, h1, h2, h3⟩ := ih (w.record w.state (.listPods ns sel) none)
      (fun ns1 hns1 q hq => hc ns1 (List.mem_cons_of_mem _ hns1) q hq)
    refine ⟨w1, ?_, ?_, ?_⟩
    · simp only [cullNamespaces, hl, deletePods]
      exact h1
    · rw [h2]
      rfl
    · rw [h3]
      simp [World.record, deleteCalls_append, deleteCalls]

theorem culled_mono {validate : String → String → Option Err} {cl cl1 : Cluster}
    {rule : DeleteRules} (h : Culled validate cl rule) (hn : cl1.namespaces = cl.namespaces)
    (hp : ∀ q ∈ cl1.pods, q ∈ cl.pods) : Culled validate cl1 rule := by
  obtain ⟨sel, h1, h2⟩ := h
  refine ⟨sel, h1, ?_⟩
  intro ns hns q hq
  rw [hn] at hns
  exact h2 ns hns q (hp q hq)

theorem resolveNamespaces_cluster (rule : DeleteRules) (w : World Cluster) :
    ∃ w1, resolveNamespaces Cluster.client rule w =
        (.ok (resolveSpec rule.Namespace w.state.namespaces), w1) ∧
      w1.state = w.state ∧ deleteCalls w1.trace = deleteCalls w.trace := by
  by_cases hs : rule.Namespace = "*"
  · refine ⟨w.record w.state .listNamespaces none, ?_, rfl, ?_⟩
    · have hl : Cluster.client.listNamespaces w.state = (.ok w.state.namespaces, w.state) := rfl
      simp [resolveNamespaces, resolveSpec, hs, hl]
    · simp [World.record, deleteCalls_append, deleteCalls]
  · exact ⟨w, by simp [resolveNamespaces, resolveSpec, hs], rfl, rfl⟩

theorem processRule_cluster (validate : String → String → Option Err) (rule : DeleteRules)
    (w w1 : World Cluster) (h : processRule Cluster.client validate rule w = (none, w1)) :
    w1.state.namespaces = w.state.namespaces ∧ w1.state.sidecars = w.state.sidecars ∧
      w1.state.clock = w.state.clock ∧ (∀ q ∈ w1.state.pods, q ∈ w.state.pods) ∧
      Culled validate w1.state rule := by
  obtain ⟨w2, hr, hs2, _⟩ := resolveNamespaces_cluster rule w
  obtain ⟨evs, _, hs3, _⟩ := buildSelector_added validate rule.Labels w2
  have hf := buildSelector_fst validate rule.Labels w2 (⟨(), []⟩ : World Unit)
  rcases hb : buildSelector validate rule.Labels w2 with ⟨r, w3⟩
  rw [hb] at hs3 hf
  simp only at hs3 hf
  cases r with
  | error err => simp [processRule, hr, hb] at h
  | ok sel =>
    simp only [processRule, hr, hb] at h
    obtain ⟨h1, h2, h3, h4, h5⟩ := cullNamespaces_cluster sel _ w3 w1 h
    rw [hs3, hs2] at h1 h2 h3 h4
    refine ⟨h1, h2, h3, h4, sel, hf.symm, ?_⟩
    rw [h1]
    exact h5

theorem processRules_cluster (validate : String → String → Option Err)
    (rules : List DeleteRules) (w w1 : World Cluster)
    (h : processRules Cluster.client validate rules w = (none, w1)) :
    w1.state.namespaces = w.state.namespaces ∧ w1.state.sidecars = w.state.sidecars ∧
      w1.state.clock = w.state.clock ∧ (∀ q ∈ w1.state.pods, q ∈ w.state.pods) ∧
      ∀ rule ∈ rules, Culled validate w1.state rule := by
  induction rules generalizing w with
  | nil =>
    simp only [processRules, Prod.mk.injEq, true_and] at h
    subst h
    simp
  | cons rule rest ih =>
    rcases hp : processRule Cluster.client validate rule w with ⟨r, w2⟩
    cases r with
    | some err => simp [processRules, hp] at h
    | none =>
      simp only [processRules, hp] at h
      obtain ⟨h1, h2, h3, h4, h5⟩ := ih _ h
      obtain ⟨g1, g2, g3, g4, g5⟩ := processRule_cluster validate rule w w2 hp
      refine ⟨h1.trans g1, h2.trans g2, h3.trans g3, fun q hq => g4 q (h4 q hq), ?_⟩
      intro rule1 hr1
      rcases List.mem_cons.1 hr1 with hr | hr
      · subst hr
        exact culled_mono g5 h1 h4
      · exact h5 rule1 hr

theorem processRules_culled (validate : String → String → Option Err)
    (rules : List DeleteRules) (w : World Cluster)
    (hc : ∀ rule ∈ rules, Culled validate w.state rule) :
    ∃ w1, processRules Cluster.client validate rules w = (none, w1) ∧ w1.state = w.state ∧
      deleteCalls w1.trace = deleteCalls w.trace := by
  induction rules generalizing w with
  | nil => exact ⟨w, rfl, rfl, rfl⟩
  | cons rule rest ih =>
    obtain ⟨sel, hsel, hno⟩ := hc rule (List.mem_cons_self _ _)
    obtain ⟨w2, hr, hs2, hd2⟩ := resolveNamespaces_cluster rule w
    obtain ⟨evs, _, hs3, _⟩ := buildSelector_added validate rule.Labels w2
    obtain ⟨evs1, htr, hcalls⟩ := buildSelector_calls validate rule.Labels w2
    have hf := buildSelector_fst validate rule.Labels w2 (⟨(), []⟩ : World Unit)
    rcases hb : buildSelector validate rule.Labels w2 with ⟨r, w3⟩
    rw [hb] at hs3 hf htr
    simp only at hs3 hf htr
    rw [hsel] at hf
    subst hf
    obtain ⟨w4, hcull, hs4, hd4⟩ := cullNamespaces_culled sel
      (resolveSpec rule.Namespace w.state.namespaces) w3 (by
        rw [hs3, hs2]
        exact hno)
    obtain ⟨w5, hrest, hs5, hd5⟩ := ih w4 (by
      rw [hs4, hs3, hs2]
      exact fun rule1 hr1 => hc rule1 (List.mem_cons_of_mem _ hr1))
    refine ⟨w5, ?_, ?_, ?_⟩
    · simp only [processRules, processRule, hr, hb, hcull]
      exact hrest
    · rw [hs5, hs4, hs3, hs2]
    · rw [hd5, hd4, htr, deleteCalls_append, deleteCalls_newRequirement hcalls, hd2]
      simp


theorem cluster_get_ok {cl : Cluster} {key : NamespacedName} {sc : Sidecar}
    (h : (Cluster.get cl key).1 = .ok sc) :
    Cluster.client.get cl key = (.ok sc, cl) ∧
      cl.sidecars.find? (fun x => x.Key == key) = some sc := by
  change _ ∧ _
  unfold Cluster.get at h
  cases hf : cl.sidecars.find? (fun x => x.Key == key) with
  | none =>
    rw [hf] at h
    simp at h
  | some sc1 =>
    rw [hf] at h
    simp only [Except.ok.injEq] at h
    subst h
    refine ⟨?_, rfl⟩
    change Cluster.get cl key = _
    simp only [Cluster.get, hf]

theorem cluster_statusUpdate_found {cl : Cluster} {key : NamespacedName} {sc : Sidecar}
    (sidecar : Sidecar)
    (hf : cl.sidecars.find? (fun x => x.Key == key) = some sc) (hk : sidecar.Key = key) :
    ∃ cl1, Cluster.client.statusUpdate cl sidecar = (none, cl1) ∧
      cl1.pods = cl.pods ∧ cl1.namespaces = cl.namespaces ∧
      (Cluster.get cl1 key).1 = .ok { sc with Conditions := sidecar.Conditions } := by
  have hsc : sc.Key = key := by
    have := List.find?_some hf
    simpa using this
  have hmem : sc ∈ cl.sidecars := List.mem_of_find?_eq_some hf
  have hany : cl.sidecars.any (fun x => x.Key == sidecar.Key) = true := by
    rw [List.any_eq_true]
    exact ⟨sc, hmem, by simp [hsc, hk]⟩
  refine ⟨{ cl with sidecars := cl.sidecars.map (withConditions sidecar) }, ?_, rfl, rfl, ?_⟩
  · change Cluster.statusUpdate cl sidecar = _
    unfold Cluster.statusUpdate
    rw [if_pos hany]
    rfl
  · have hcomp : ((fun x : Sidecar => x.Key == key) ∘ withConditions sidecar) =
        (fun x : Sidecar => x.Key == key) := by
      funext x
      simp only [Function.comp, withConditions]
      split <;> rfl
    simp only [Cluster.get, List.find?_map, hcomp, hf, Option.map_some']
    simp [withConditions, hsc, hk]

/-- C10: idempotence in the in-memory cluster.  When the resource is stored and a reconcile of
it returned no error, a second reconcile directly after it returns no error, issues no pod
delete call, leaves the pods as they are, and its status update appends one further
"Reconciled" condition to the condition list stored by the first one. -/
theorem reconcile_idempotent (validate : String → String → Option Err) (req : NamespacedName)
    (cl : Cluster) (sidecar : Sidecar) (hget : (Cluster.get cl req).1 = .ok sidecar)
    (hfirst : (Reconcile Cluster.client validate req ⟨cl, []⟩).1.2 = none) :
    (Reconcile Cluster.client validate req
      ⟨(Reconcile Cluster.client validate req ⟨cl, []⟩).2.state, []⟩).1.2 = none ∧
    deleteCalls (Reconcile Cluster.client validate req
      ⟨(Reconcile Cluster.client validate req ⟨cl, []⟩).2.state, []⟩).2.trace = [] ∧
    (Reconcile Cluster.client validate req
      ⟨(Reconcile Cluster.client validate req ⟨cl, []⟩).2.state, []⟩).2.state.pods =
      (Reconcile Cluster.client validate req ⟨cl, []⟩).2.state.pods ∧
    ∃ cond1 cond2 : Condition,
      (Cluster.get (Reconcile Cluster.client validate req ⟨cl, []⟩).2.state req).1 =
        .ok { sidecar with Conditions := sidecar.Conditions ++ [cond1] } ∧
      (Cluster.get (Reconcile Cluster.client validate req
        ⟨(Reconcile Cluster.client validate req ⟨cl, []⟩).2.state, []⟩).2.state req).1 =
        .ok { sidecar with Conditions := (sidecar.Conditions ++ [cond1]) ++ [cond2] } ∧
      cond2.Type_ = "Reconciled" ∧ cond2.Status = .ConditionTrue ∧
      cond2.Reason = "Reconciled" := by
  obtain ⟨hg, hfind⟩ := cluster_get_ok hget
  have hkey : sidecar.Key = req := by
    have := List.find?_some hfind
    simpa using this
  -- the first reconcile
  rcases hp : processRules Cluster.client validate sidecar.DeleteRules
    (World.record ⟨cl, []⟩ cl (.get req) none) with ⟨r1, w1⟩
  cases r1 with
  | some e =>
    rw [reconcile_of_rules_err Cluster.client validate req cl cl sidecar e w1 hg hp] at hfirst
    simp at hfirst
  | none =>
    obtain ⟨f1, f2, _, _, f5⟩ := processRules_cluster validate sidecar.DeleteRules _ w1 hp
    simp only [World.record] at f1 f2
    have hfind1 : w1.state.sidecars.find? (fun x => x.Key == req) = some sidecar := by
      rw [f2]
      exact hfind
    obtain ⟨cl1, hu1, hpods1, hns1, hget1⟩ := cluster_statusUpdate_found
      { sidecar with Conditions := sidecar.Conditions ++
        [reconciledCondition sidecar (Cluster.client.now w1.state)] } hfind1 hkey
    have hR1 := reconcile_of_rules_ok Cluster.client validate req cl cl sidecar w1 hg hp
    rw [hu1] at hR1
    rw [hR1]
    simp only [World.record]
    -- the cluster after the first reconcile is culled for every rule
    have hculled : ∀ rule ∈ sidecar.DeleteRules, Culled validate cl1 rule :=
      fun rule hr => culled_mono (f5 rule hr) hns1 (fun q hq => by rw [← hpods1]; exact hq)
    -- the second reconcile
    obtain ⟨hg2, hfind2⟩ := cluster_get_ok hget1
    obtain ⟨w2, hp2, hs2, hd2⟩ := processRules_culled validate sidecar.DeleteRules
      (World.record ⟨cl1, []⟩ cl1 (.get req) none) hculled
    simp only [World.record] at hs2 hd2
    have hfind3 : w2.state.sidecars.find? (fun x => x.Key == req) =
        some { sidecar with Conditions := sidecar.Conditions ++
          [reconciledCondition sidecar (Cluster.client.now w1.state)] } := by
      rw [hs2]
      exact hfind2
    obtain ⟨cl2, hu2, hpods2, _, hget2⟩ := cluster_statusUpdate_found
      { sidecar with Conditions := (sidecar.Conditions ++
        [reconciledCondition sidecar (Cluster.client.now w1.state)]) ++
        [reconciledCondition { sidecar with Conditions := sidecar.Conditions ++
          [reconciledCondition sidecar (Cluster.client.now w1.state)] }
          (Cluster.client.now w2.state)] } hfind3 hkey
    have hR2 := reconcile_of_rules_ok Cluster.client validate req cl1 cl1
      { sidecar with Conditions := sidecar.Conditions ++
        [reconciledCondition sidecar (Cluster.client.now w1.state)] } w2 hg2 hp2
    simp only at hR2
    rw [hu2] at hR2
    rw [hR2]
    simp only [World.record]
    refine ⟨trivial, ?_, ?_, reconciledCondition sidecar (Cluster.client.now w1.state),
      reconciledCondition { sidecar with Conditions := sidecar.Conditions ++
        [reconciledCondition sidecar (Cluster.client.now w1.state)] }
        (Cluster.client.now w2.state), hget1, hget2, rfl, rfl, rfl⟩
    · rw [deleteCalls_append, hd2]
      simp [deleteCalls]
    · rw [hpods2, hs2]


/-- Scenario A: the fetch and all rule calls succeed, the delete sequence is the reference
sequence, which is `p1` alone, `p2` is left in the cluster, and the pod list of the in-memory
cluster honours its options. -/
theorem reconcile_delete_sequence_scenarioA :
    (∀ ev ∈ (Reconcile Cluster.client sampleValidate scenarioKey ⟨scenarioA, []⟩).2.trace,
      ev.call.isRuleCall = true → ev.err = none) ∧
    deleteCalls (Reconcile Cluster.client sampleValidate scenarioKey ⟨scenarioA, []⟩).2.trace =
      specDeletes Cluster.client sampleValidate [⟨"default", [("app", "x")]⟩] scenarioA ∧
    specDeletes Cluster.client sampleValidate [⟨"default", [("app", "x")]⟩] scenarioA =
      [podP1] ∧
    (Reconcile Cluster.client sampleValidate scenarioKey ⟨scenarioA, []⟩).2.state.pods =
      [podP2] ∧
    ListsInNamespace Cluster.client ∧
    (∀ p ∈ deleteCalls
        (Reconcile Cluster.client sampleValidate scenarioKey ⟨scenarioA, []⟩).2.trace,
      ∃ rule ∈ ([⟨"default", [("app", "x")]⟩] : List DeleteRules), ∃ selector s2,
        (buildSelector sampleValidate rule.Labels (⟨(), []⟩ : World Unit)).1 = .ok selector ∧
        selector.Matches p.Labels = true ∧
        (p.Namespace ∈
            resolveSpec rule.Namespace (listed (Cluster.client.listNamespaces s2).1) ∨
          "" ∈ resolveSpec rule.Namespace (listed (Cluster.client.listNamespaces s2).1))) :=
  have h := reconcile_delete_sequence Cluster.client sampleValidate scenarioKey scenarioA
    scenarioA ⟨scenarioKey, [⟨"default", [("app", "x")]⟩], []⟩ rfl (by decide)
  ⟨by decide, h.1, by decide, by decide, cluster_listsInNamespace,
    h.2 cluster_listsInNamespace⟩

/-- Scenario A behind an API server that refuses pod deletes: the delete of `p1` fails, the
reconcile returns that error, nothing follows the failing call and the status is not
updated. -/
theorem reconcile_abort_on_failure_refused :
    (Reconcile refusingDeletes sampleValidate scenarioKey ⟨scenarioA, []⟩).2.trace =
      [⟨.get scenarioKey, none⟩, ⟨.newRequirement "app" "x", none⟩,
        ⟨.listPods "default" ⟨[⟨"app", "x"⟩]⟩, none⟩] ++
      ⟨.delete podP1, some ⟨"Forbidden", "pods is forbidden"⟩⟩ :: [] ∧
    (Reconcile refusingDeletes sampleValidate scenarioKey ⟨scenarioA, []⟩).1.2 =
      some ⟨"Forbidden", "pods is forbidden"⟩ ∧
    statusUpdateCalls
      (Reconcile refusingDeletes sampleValidate scenarioKey ⟨scenarioA, []⟩).2.trace = [] :=
  have h := reconcile_abort_on_failure refusingDeletes sampleValidate scenarioKey scenarioA
    [⟨.get scenarioKey, none⟩, ⟨.newRequirement "app" "x", none⟩,
      ⟨.listPods "default" ⟨[⟨"app", "x"⟩]⟩, none⟩] []
    ⟨.delete podP1, some ⟨"Forbidden", "pods is forbidden"⟩⟩ ⟨"Forbidden", "pods is forbidden"⟩
    (by decide) rfl rfl
  ⟨by decide, h.1, h.2.2.2⟩

/-- Scenario C: the resource is not stored, the fetch fails with not-found, the fetch is the
only call and the reconcile returns no error. -/
theorem reconcile_fetch_failure_scenarioC :
    Cluster.client.get scenarioC scenarioKey = (.error (notFoundErr "sidecar"), scenarioC) ∧
    (Reconcile Cluster.client sampleValidate scenarioKey ⟨scenarioC, []⟩).2.trace =
      [⟨.get scenarioKey, some (notFoundErr "sidecar")⟩] ∧
    (Reconcile Cluster.client sampleValidate scenarioKey ⟨scenarioC, []⟩).1.2 = none :=
  have h := reconcile_fetch_failure Cluster.client sampleValidate scenarioKey scenarioC
    scenarioC (notFoundErr "sidecar") rfl
  ⟨rfl, h.1, h.2.2.1.2 (by decide)⟩

/-- Scenario D: the rule with the empty label key comes second; the reconcile returns its
validation error, no delete follows the one of the first rule, the status is not updated. -/
theorem reconcile_invalid_label_key_scenarioD :
    (∀ val, sampleValidate "" val ≠ none) ∧
    ∃ kv ∈ ([("", "v")] : LabelMap), ∃ e, sampleValidate kv.1 kv.2 = some e ∧
      (Reconcile Cluster.client sampleValidate scenarioKey ⟨scenarioD, []⟩).1.2 = some e ∧
      statusUpdateCalls
        (Reconcile Cluster.client sampleValidate scenarioKey ⟨scenarioD, []⟩).2.trace = [] :=
  have hinv : ∀ val, sampleValidate "" val ≠ none := fun val => by simp [sampleValidate]
  have h := reconcile_invalid_label_key Cluster.client sampleValidate scenarioKey scenarioD
    scenarioD ⟨scenarioKey, [⟨"default", [("app", "x")]⟩, ⟨"default", [("", "v")]⟩], []⟩
    [⟨"default", [("app", "x")]⟩] [] ⟨"default", [("", "v")]⟩
    (processRules Cluster.client sampleValidate [⟨"default", [("app", "x")]⟩]
      (World.record ⟨scenarioD, []⟩ scenarioD (.get scenarioKey) none)).2
    (processRules Cluster.client sampleValidate [⟨"default", [("app", "x")]⟩]
      (World.record ⟨scenarioD, []⟩ scenarioD (.get scenarioKey) none)).2
    ["default"] "" "v" rfl rfl rfl rfl (by decide) hinv (by decide)
  ⟨hinv, by
    obtain ⟨kv, h1, e, h2, h3, _, _, _, h4⟩ := h
    exact ⟨kv, h1, e, h2, h3, h4⟩⟩

/-- Scenario with two rules and an earlier condition: the status update is called once, with
the earlier condition kept and one "Reconciled" condition after it. -/
theorem reconcile_appends_one_condition_twoRules :
    (∀ ev ∈ (Reconcile Cluster.client sampleValidate scenarioKey
        ⟨scenarioTwoRules, []⟩).2.trace, ev.call.isRuleCall = true → ev.err = none) ∧
    ∃ cond : Condition, cond.Type_ = "Reconciled" ∧ cond.Status = .ConditionTrue ∧
      cond.Reason = "Reconciled" ∧
      statusUpdateCalls (Reconcile Cluster.client sampleValidate scenarioKey
        ⟨scenarioTwoRules, []⟩).2.trace =
        [⟨scenarioKey, [⟨"default", [("app", "x")]⟩, ⟨"*", [("tier", "db")]⟩],
          [⟨"Ready", .ConditionTrue, "Ready", 0, "ready"⟩] ++ [cond]⟩] :=
  ⟨by decide,
    reconcile_appends_one_condition Cluster.client sampleValidate scenarioKey scenarioTwoRules
      scenarioTwoRules
      ⟨scenarioKey, [⟨"default", [("app", "x")]⟩, ⟨"*", [("tier", "db")]⟩],
        [⟨"Ready", .ConditionTrue, "Ready", 0, "ready"⟩]⟩ rfl (by decide)⟩

/-- In scenario B the literal namespace `nowhere`, which the cluster does not hold, resolves
to itself, and the wildcard resolves to `a`, `b`. -/
theorem resolveNamespaces_eq_spec_scenarioB :
    (resolveNamespaces Cluster.client ⟨"nowhere", []⟩ ⟨scenarioB, []⟩).1 = .ok ["nowhere"] ∧
    (resolveNamespaces Cluster.client ⟨"*", []⟩ ⟨scenarioB, []⟩).1 = .ok ["a", "b"] :=
  ⟨congrArg Prod.fst
      ((resolveNamespaces_eq_spec Cluster.client ⟨"nowhere", []⟩ ⟨scenarioB, []⟩).1
        (by decide)).1,
    congrArg Prod.fst
      ((resolveNamespaces_eq_spec Cluster.client ⟨"*", []⟩ ⟨scenarioB, []⟩).2 rfl
        [⟨"a"⟩, ⟨"b"⟩] scenarioB rfl).1⟩

/-- The mapping `app: x, tier: db` is not match-all: its selector has the two equality
requirements. -/
theorem buildSelector_everything_iff_example :
    ¬ (([("app", "x"), ("tier", "db")] : LabelMap) = [] ∨
      LabelMap.index [("app", "x"), ("tier", "db")] "*" = "*") ∧
    (buildSelector sampleValidate [("app", "x"), ("tier", "db")] (⟨(), []⟩ : World Unit)).1 =
      .ok ⟨[⟨"app", "x"⟩, ⟨"tier", "db"⟩]⟩ :=
  ⟨by decide,
    ((buildSelector_everything_iff sampleValidate [("app", "x"), ("tier", "db")]
      (⟨(), []⟩ : World Unit)).2 (by decide)).2 (by decide)⟩

/-- The mapping `app: x, tier: db`, visited in the other order: the selector matches the
labels of a pod exactly when they carry both pairs. -/
theorem buildSelector_matches_example :
    ∃ selector,
      (buildSelector sampleValidate [("tier", "db"), ("app", "x")] (⟨(), []⟩ : World Unit)).1 =
        .ok selector ∧
      ∀ ls : LabelMap, (selector.Matches ls = true ↔
        ∀ kv ∈ ([("app", "x"), ("tier", "db")] : LabelMap), ls.lookup kv.1 = some kv.2) :=
  (buildSelector_matches sampleValidate (⟨(), []⟩ : World Unit)).2
    [("app", "x"), ("tier", "db")] [("tier", "db"), ("app", "x")] (by decide) (by decide)
    (by decide) (List.Perm.swap _ _ _)

/-- Scenario with two rules: the first reconcile succeeds, and the second one succeeds with
no delete call. -/
theorem reconcile_idempotent_twoRules :
    (Reconcile Cluster.client sampleValidate scenarioKey ⟨scenarioTwoRules, []⟩).1.2 = none ∧
    deleteCalls (Reconcile Cluster.client sampleValidate scenarioKey
      ⟨scenarioTwoRules, []⟩).2.trace =
      [podP1, ⟨"data", "p3", [("tier", "db"), ("app", "y")]⟩] ∧
    (Reconcile Cluster.client sampleValidate scenarioKey
      ⟨(Reconcile Cluster.client sampleValidate scenarioKey
        ⟨scenarioTwoRules, []⟩).2.state, []⟩).1.2 = none ∧
    deleteCalls (Reconcile Cluster.client sampleValidate scenarioKey
      ⟨(Reconcile Cluster.client sampleValidate scenarioKey
        ⟨scenarioTwoRules, []⟩).2.state, []⟩).2.trace = [] :=
  have h := reconcile_idempotent sampleValidate scenarioKey scenarioTwoRules
    ⟨scenarioKey, [⟨"default", [("app", "x")]⟩, ⟨"*", [("tier", "db")]⟩],
      [⟨"Ready", .ConditionTrue, "Ready", 0, "ready"⟩]⟩ rfl (by decide)
  ⟨by decide, by decide, h.1, h.2.1⟩

end Trace

end SidecarTerminator
